import Mathlib

/-!
Shallow embedding of the attendance-import pipeline of
`src/app/api/import/attendance/route.ts` (a Next.js route handler).

Strings are modelled as `List Char` (the route only manipulates decoded
Unicode text).  JavaScript numbers are modelled exactly as rationals `ℚ`
(every value produced by the route fits a double in the realistic input
range); `NaN` is modelled as `none` of an `Option`.  The Prisma store is
modelled as explicit lists of records with a fresh-id counter; each
`upsert` is compiled to a find-then-update-or-append on the list keyed by
the same unique key the schema declares.  The byte-level UTF-16 decoding
step (`iconv.decode`) sits at the boundary: the model receives the decoded
text, as §4.1 of the spec treats the decoder as a permissive collaborator.
-/

namespace AttendanceImport

/-- Whitespace class of JavaScript regular expressions and `trim`,
modelled on its ASCII part (space, tab, LF, CR, FF, VT). -/
def jsSpace (c : Char) : Bool :=
  c = ' ' ∨ c = '\t' ∨ c = '\n' ∨ c = '\r' ∨ c = '\x0b' ∨ c = '\x0c'

/-- Model of `String.prototype.trim`: drop leading and trailing whitespace. -/
def trimL (l : List Char) : List Char :=
  ((l.dropWhile jsSpace).reverse.dropWhile jsSpace).reverse

/-- ASCII lower-casing, modelling `String.prototype.toLowerCase` on the
ASCII subset the route deals with. -/
def lowerL (l : List Char) : List Char :=
  l.map Char.toLower

/-- ASCII upper-casing, modelling `String.prototype.toUpperCase`. -/
def upperL (l : List Char) : List Char :=
  l.map Char.toUpper

/-- Decimal digit test, the `\d` class of JavaScript regular expressions. -/
def isDigitL (c : Char) : Bool :=
  '0' ≤ c ∧ c ≤ '9'

/-- Numeric value of a digit character. -/
def dv (c : Char) : ℕ :=
  c.toNat - 48

/-- Value of a (most-significant-first) digit string. -/
def digitsVal (l : List Char) : ℕ :=
  l.foldl (fun acc c => 10 * acc + dv c) 0

/-- Maximal digit run at the head of the list, with the rest. -/
def spanDigits (l : List Char) : List Char × List Char :=
  (l.takeWhile isDigitL, l.dropWhile isDigitL)

/-- Split a character list at every occurrence of the separator,
modelling `String.prototype.split` with a single-character separator. -/
def splitCharL (sep : Char) : List Char → List (List Char)
  | [] => [[]]
  | c :: cs =>
    match splitCharL sep cs with
    | [] => [[]]
    | g :: gs => if c = sep then [] :: g :: gs else (c :: g) :: gs

/-- Model of `text.split(/\r?\n/)`: split on LF, then strip one carriage
return off the tail of every segment that was actually followed by an LF
(the CR was part of the matched separator). -/
def splitLinesJ (l : List Char) : List (List Char) :=
  match splitCharL '\n' l with
  | [] => []
  | gs =>
    match gs.reverse with
    | [] => []
    | last :: front =>
      (front.reverse.map (fun g =>
        match g.reverse with
        | '\r' :: r => r.reverse
        | _ => g)) ++ [last]

/-- Decide whether the second list starts with the first. -/
def startsWithL : List Char → List Char → Bool
  | [], _ => true
  | _ :: _, [] => false
  | p :: ps, c :: cs => p = c ∧ startsWithL ps cs

/-- Decide whether the needle occurs as a contiguous run inside the
haystack, modelling `String.prototype.includes`. -/
def containsL (needle : List Char) : List Char → Bool
  | [] => startsWithL needle []
  | c :: cs => startsWithL needle (c :: cs) ∨ containsL needle cs

/-- Decide whether the list ends with the given tail, modelling
`String.prototype.endsWith`. -/
def endsWithL (l tail : List Char) : Bool :=
  startsWithL tail.reverse l.reverse

/-! Exact JavaScript-number model.  The route computes with IEEE doubles;
on its realistic inputs every intermediate value is an exact small
rational, so numbers are modelled as unreduced integer fractions with
exact arithmetic.  The fraction is never normalized, which keeps every
operation a plain integer computation. -/

/-- An unreduced fraction `num / den` standing for a JavaScript number.
Every value the model constructs has a positive denominator. -/
structure JsNum where
  num : ℤ
  den : ℤ
deriving DecidableEq

/-- Embed a natural number. -/
def JsNum.ofNat (n : ℕ) : JsNum := ⟨n, 1⟩

/-- Exact addition of fractions. -/
def JsNum.add (a b : JsNum) : JsNum := ⟨a.num * b.den + b.num * a.den, a.den * b.den⟩

/-- Exact multiplication of fractions. -/
def JsNum.mul (a b : JsNum) : JsNum := ⟨a.num * b.num, a.den * b.den⟩

/-- Exact division of fractions. -/
def JsNum.div (a b : JsNum) : JsNum := ⟨a.num * b.den, a.den * b.num⟩

/-- Negation of a fraction. -/
def JsNum.neg (a : JsNum) : JsNum := ⟨-a.num, a.den⟩

/-- The JavaScript comparison `0 < x` on the modelled fraction. -/
def JsNum.pos (a : JsNum) : Bool := 0 < a.num * a.den

/-- Rational value denoted by the fraction. -/
def JsNum.toRat (a : JsNum) : ℚ := (a.num : ℚ) / (a.den : ℚ)

/-- JavaScript `Math.round` on the modelled fraction: round half toward
positive infinity, i.e. the floor of `x + 1/2`.  For a positive
denominator this is the flooring integer division below. -/
def jsRound (a : JsNum) : ℤ := (2 * a.num + a.den) / (2 * a.den)

/-- Rounding to the nearest integer with ties toward positive infinity,
as the specification words "rounded to nearest integer" (and JavaScript
`Math.round`) prescribe.  Used by the claim statements. -/
def roundQ (q : ℚ) : ℤ := ⌊q + 1 / 2⌋

/-- Leading-sign split of a numeric literal: returns whether the value
is negated, and the remaining characters. -/
def parseSignL (t : List Char) : Bool × List Char :=
  match t with
  | '+' :: r => (false, r)
  | '-' :: r => (true, r)
  | r => (false, r)

/-- Mantissa of a decimal literal: digits with an optional fractional
part, at least one digit overall.  Returns the fraction and the unread
rest. -/
def parseMant (l : List Char) : Option (JsNum × List Char) :=
  match spanDigits l with
  | (ds, '.' :: r2) =>
    match spanDigits r2 with
    | (fs, r3) =>
      if ds = [] ∧ fs = [] then none
      else some (⟨((digitsVal ds * 10 ^ fs.length + digitsVal fs : ℕ) : ℤ),
        (((10 : ℕ) ^ fs.length : ℕ) : ℤ)⟩, r3)
  | (ds, r2) => if ds = [] then none else some (⟨((digitsVal ds : ℕ) : ℤ), 1⟩, r2)

/-- Optional decimal exponent of a numeric literal, applied to the
already-parsed mantissa; the rest must be fully consumed. -/
def applyExp (signed : JsNum) (rest : List Char) : Option JsNum :=
  match rest with
  | [] => some signed
  | e :: r4 =>
    if e = 'e' ∨ e = 'E' then
      match parseSignL r4 with
      | (en, r5) =>
        match spanDigits r5 with
        | (es, r6) =>
          if es = [] ∨ r6 ≠ [] then none
          else if en then some (signed.div ⟨(((10 : ℕ) ^ digitsVal es : ℕ) : ℤ), 1⟩)
          else some (signed.mul ⟨(((10 : ℕ) ^ digitsVal es : ℕ) : ℤ), 1⟩)
    else none

/-- Model of the ECMAScript `Number(string)` conversion on the decimal
literal subset: optional whitespace, optional sign, digits with an
optional fractional part and an optional decimal exponent.  The empty
(or all-whitespace) string converts to `0`; anything else that does not
match yields `none`, the model of `NaN`.  The hexadecimal, octal, binary
and `Infinity` forms of the full standard are outside the modelled
subset (the route never receives them from a Teams export). -/
def jsNumber (l : List Char) : Option JsNum :=
  let t := trimL l
  if t = [] then some ⟨0, 1⟩ else
  match parseSignL t with
  | (neg, rest) =>
    match parseMant rest with
    | none => none
    | some (mant, after) => applyExp (if neg then mant.neg else mant) after

/-- Model of the anchored clock regular expression
`^(\d{1,2}):(\d{2}):(\d{2})$` of `parseMinutes`: it matches exactly the
seven-character shape `d:dd:dd` and the eight-character shape `dd:dd:dd`,
returning the captured hour, minute and second values. -/
def clockMatch : List Char → Option (ℕ × ℕ × ℕ)
  | [a, b, c, d, e, f, g] =>
    if isDigitL a ∧ b = ':' ∧ isDigitL c ∧ isDigitL d ∧ e = ':' ∧ isDigitL f ∧ isDigitL g
    then some (dv a, 10 * dv c + dv d, 10 * dv f + dv g)
    else none
  | [a, b, c, d, e, f, g, h] =>
    if isDigitL a ∧ isDigitL b ∧ c = ':' ∧ isDigitL d ∧ isDigitL e ∧ f = ':' ∧
       isDigitL g ∧ isDigitL h
    then some (10 * dv a + dv b, 10 * dv d + dv e, 10 * dv g + dv h)
    else none
  | _ => none

/-- Attempt to match the pattern `(\d+)\s*u` at the head of the list:
a maximal digit run, optional whitespace, then the unit letter
(case-insensitively).  Returns the captured number on success. -/
def unitHere (u : Char) (l : List Char) : Option ℕ :=
  match l with
  | [] => none
  | c :: _ =>
    if isDigitL c then
      let (ds, rest) := spanDigits l
      match rest.dropWhile jsSpace with
      | d :: _ => if d.toLower = u then some (digitsVal ds) else none
      | [] => none
    else none

/-- Model of `v.match(/(\d+)\s*u/i)`: scan left to right for the first
position at which the pattern matches and return its captured number.
A greedy digit run that fails to reach the unit letter cannot match at
any shorter length (the next character would be a digit), so advancing
the start position one character at a time is the exact leftmost-match
semantics of the JavaScript engine here. -/
def findUnit (u : Char) : List Char → Option ℕ
  | [] => none
  | c :: cs =>
    match unitHere u (c :: cs) with
    | some n => some n
    | none => findUnit u cs

/-- Sum accumulated from the three unit captures of `parseMinutes`
(`hr`, `mr`, `sr` in the source): start from zero, add hours times
sixty, add minutes, add seconds over sixty, an unmatched unit
contributing nothing. -/
def unitSum (v : List Char) : JsNum :=
  let m0 : JsNum := ⟨0, 1⟩
  let m1 := match findUnit 'h' v with
    | some n => m0.add ((JsNum.ofNat n).mul (JsNum.ofNat 60))
    | none => m0
  let m2 := match findUnit 'm' v with
    | some n => m1.add (JsNum.ofNat n)
    | none => m1
  match findUnit 's' v with
  | some n => m2.add ((JsNum.ofNat n).div (JsNum.ofNat 60))
  | none => m2

/-- Model of `parseMinutes` (route.ts lines 12-41): trim; the empty
string gives null; then the anchored clock pattern gives
`Math.round(h*60 + m + s/60)`; then the unit-suffix sum when it is
positive; then the bare `Number` fallback; otherwise null. -/
def parseMinutes (value : List Char) : Option ℤ :=
  let v := trimL value
  if v = [] then none
  else
    match clockMatch v with
    | some (h, m, s) =>
      some (jsRound ((((JsNum.ofNat h).mul (JsNum.ofNat 60)).add (JsNum.ofNat m)).add
        ((JsNum.ofNat s).div (JsNum.ofNat 60))))
    | none =>
      let mins := unitSum v
      if mins.pos then some (jsRound mins)
      else
        match jsNumber v with
        | some n => some (jsRound n)
        | none => none

/-! Bridge lemmas between the fraction model and rational arithmetic. -/

/-- For a positive denominator, the modelled `Math.round` is the floor of
the denoted rational plus one half. -/
theorem jsRound_eq_roundQ (a : JsNum) (hd : 0 < a.den) :
    jsRound a = roundQ a.toRat := by
  have h2 : (0 : ℤ) < 2 * a.den := by omega
  have hdq : ((a.den : ℚ)) ≠ 0 := by exact_mod_cast hd.ne'
  have heq : a.toRat + 1 / 2 = ((2 * a.num + a.den : ℤ) : ℚ) / ((2 * a.den : ℤ) : ℚ) := by
    rw [JsNum.toRat]
    push_cast
    field_simp
    ring
  have hn : ((2 * a.den : ℤ) : ℚ) = (((2 * a.den).toNat : ℕ) : ℚ) := by
    exact_mod_cast (Int.toNat_of_nonneg h2.le).symm
  rw [roundQ, heq, hn, Rat.floor_intCast_div_natCast, Int.toNat_of_nonneg h2.le, jsRound]

/-- The boolean positivity test agrees with positivity of the denoted
rational. -/
theorem JsNum.pos_iff (a : JsNum) : a.pos = true ↔ 0 < a.toRat := by
  rw [JsNum.pos, JsNum.toRat, decide_eq_true_eq, div_pos_iff, mul_pos_iff]
  constructor
  · rintro (⟨h1, h2⟩ | ⟨h1, h2⟩)
    · exact Or.inl ⟨by exact_mod_cast h1, by exact_mod_cast h2⟩
    · exact Or.inr ⟨by exact_mod_cast h1, by exact_mod_cast h2⟩
  · rintro (⟨h1, h2⟩ | ⟨h1, h2⟩)
    · exact Or.inl ⟨by exact_mod_cast h1, by exact_mod_cast h2⟩
    · exact Or.inr ⟨by exact_mod_cast h1, by exact_mod_cast h2⟩

/-- The unit-capture sum always carries a positive denominator. -/
theorem unitSum_den_pos (v : List Char) : 0 < (unitSum v).den := by
  rw [unitSum]
  rcases findUnit 'h' v with _ | n1 <;> rcases findUnit 'm' v with _ | n2 <;>
    rcases findUnit 's' v with _ | n3 <;>
    simp [JsNum.add, JsNum.mul, JsNum.div, JsNum.ofNat]

/-- The mantissa parser yields positive denominators. -/
theorem parseMant_den_pos (l : List Char) (a : JsNum) (r : List Char)
    (h : parseMant l = some (a, r)) : 0 < a.den := by
  rw [parseMant] at h
  split at h
  · split at h
    split at h
    · cases h
    · injection h with h'
      cases h'
      simp only
      positivity
  · split at h
    · cases h
    · injection h with h'
      cases h'
      norm_num

/-- The exponent step preserves positive denominators. -/
theorem applyExp_den_pos (a : JsNum) (rest : List Char) (b : JsNum)
    (ha : 0 < a.den) (h : applyExp a rest = some b) : 0 < b.den := by
  cases rest with
  | nil =>
    simp only [applyExp, Option.some.injEq] at h
    cases h
    exact ha
  | cons e r4 =>
    simp only [applyExp] at h
    split_ifs at h with he hes hen
    · cases h
      simp only [JsNum.div]
      exact mul_pos ha (by positivity)
    · cases h
      simp only [JsNum.mul]
      simpa using ha

/-- Every fraction produced by the `Number` model has a positive
denominator. -/
theorem jsNumber_den_pos (v : List Char) (a : JsNum) (h : jsNumber v = some a) :
    0 < a.den := by
  rw [jsNumber] at h
  split_ifs at h with h0
  · cases h
    decide
  · simp only at h
    split at h
    · cases h
    · rename_i mant after hm
      refine applyExp_den_pos _ _ _ ?_ h
      have hp := parseMant_den_pos _ mant after hm
      split
      · simpa [JsNum.neg] using hp
      · exact hp

/-! Lemmas about the three strategies of the duration parser. -/

/-- The clock regular expression matches any string of the claimed shape
(one or two hour digits, a colon, two minute digits, a colon, two second
digits) and captures the three numeric components. -/
theorem clockMatch_shape (hd md sd : List Char)
    (hh : hd.length = 1 ∨ hd.length = 2) (hm : md.length = 2) (hs : sd.length = 2)
    (hdig : ∀ c ∈ hd ++ md ++ sd, isDigitL c) :
    clockMatch (hd ++ ':' :: md ++ ':' :: sd) =
      some (digitsVal hd, digitsVal md, digitsVal sd) := by
  obtain ⟨m1, m2, rfl⟩ := List.length_eq_two.mp hm
  obtain ⟨s1, s2, rfl⟩ := List.length_eq_two.mp hs
  rcases hh with h1 | h2
  · obtain ⟨a, rfl⟩ := List.length_eq_one.mp h1
    have ha := hdig a (by simp)
    have hm1 := hdig m1 (by simp)
    have hm2 := hdig m2 (by simp)
    have hs1 := hdig s1 (by simp)
    have hs2 := hdig s2 (by simp)
    simp [clockMatch, ha, hm1, hm2, hs1, hs2, digitsVal]
  · obtain ⟨a, b, rfl⟩ := List.length_eq_two.mp h2
    have ha := hdig a (by simp)
    have hb := hdig b (by simp)
    have hm1 := hdig m1 (by simp)
    have hm2 := hdig m2 (by simp)
    have hs1 := hdig s1 (by simp)
    have hs2 := hdig s2 (by simp)
    simp [clockMatch, ha, hb, hm1, hm2, hs1, hs2, digitsVal]

/-- The fraction built by the clock branch of `parseMinutes` rounds to
the same integer as the rational `h*60 + m + s/60`. -/
theorem jsRound_clockVal (h m s : ℕ) :
    jsRound ((((JsNum.ofNat h).mul (JsNum.ofNat 60)).add (JsNum.ofNat m)).add
      ((JsNum.ofNat s).div (JsNum.ofNat 60))) =
    roundQ ((h : ℚ) * 60 + (m : ℚ) + (s : ℚ) / 60) := by
  rw [jsRound_eq_roundQ]
  · congr 1
    simp only [JsNum.toRat, JsNum.add, JsNum.mul, JsNum.div, JsNum.ofNat]
    push_cast
    field_simp
    try ring
  · simp [JsNum.add, JsNum.mul, JsNum.div, JsNum.ofNat]

/-- Evaluation of `parseMinutes` through the clock branch. -/
theorem parseMinutes_clock_eval (v : List Char) (h m s : ℕ)
    (hne : trimL v ≠ []) (hc : clockMatch (trimL v) = some (h, m, s)) :
    parseMinutes v = some (roundQ ((h : ℚ) * 60 + (m : ℚ) + (s : ℚ) / 60)) := by
  simp only [parseMinutes]
  rw [if_neg hne, hc]
  exact congrArg some (jsRound_clockVal h m s)

/-- Evaluation of `parseMinutes` through the positive unit-sum branch. -/
theorem parseMinutes_units_eval (v : List Char)
    (hclock : clockMatch (trimL v) = none) (hpos : (unitSum (trimL v)).pos = true) :
    parseMinutes v = some (jsRound (unitSum (trimL v))) := by
  have hne : trimL v ≠ [] := by
    intro hemp
    rw [hemp] at hpos
    simp [unitSum, findUnit, JsNum.pos] at hpos
  simp only [parseMinutes]
  rw [if_neg hne, hclock, if_pos hpos]

/-- C5: for every duration string matching the clock shape `H:MM:SS` or
`HH:MM:SS` (one or two hour digits, two minute digits, two second
digits), `parseMinutes` returns `round(H*60 + MM + SS/60)`; in
particular `"1:02:30"` parses to 63 minutes. -/
theorem claim5_clock_minutes :
    (∀ (v hd md sd : List Char),
        trimL v = hd ++ ':' :: md ++ ':' :: sd →
        hd.length = 1 ∨ hd.length = 2 → md.length = 2 → sd.length = 2 →
        (∀ c ∈ hd ++ md ++ sd, isDigitL c) →
        parseMinutes v = some (roundQ ((digitsVal hd : ℚ) * 60 + (digitsVal md : ℚ) +
          (digitsVal sd : ℚ) / 60))) ∧
    parseMinutes "1:02:30".data = some 63 := by
  constructor
  · intro v hd md sd hsplit hh hm hs hdig
    have hc : clockMatch (trimL v) = some (digitsVal hd, digitsVal md, digitsVal sd) := by
      rw [hsplit]
      exact clockMatch_shape hd md sd hh hm hs hdig
    have hne : trimL v ≠ [] := by
      rw [hsplit]
      cases hd <;> simp
    exact parseMinutes_clock_eval v _ _ _ hne hc
  · decide

/-- C5 witness: the clock theorem applied at the concrete input
`"07:03:09"`. -/
theorem claim5_clock_minutes_witness :
    parseMinutes "07:03:09".data =
      some (roundQ ((digitsVal ['0', '7'] : ℚ) * 60 + (digitsVal ['0', '3'] : ℚ) +
        (digitsVal ['0', '9'] : ℚ) / 60)) :=
  claim5_clock_minutes.1 "07:03:09".data ['0', '7'] ['0', '3'] ['0', '9']
    (by decide) (Or.inr (by decide)) (by decide) (by decide) (by decide)

/-- C6 counterexample: `"0h"` contains the integer 0 followed by the
unit letter `h`, so the claim prescribes the rounded sum 0, but
`parseMinutes` returns `none`: the unit sum is not positive, and the
bare-number fallback fails on `"0h"`. -/
theorem claim6_units_cex :
    parseMinutes "0h".data = none ∧
    parseMinutes "0h".data ≠ some (roundQ ((0 : ℚ) * 60 + 0 + 0 / 60)) := by
  have h0 : parseMinutes "0h".data = none := by decide
  refine ⟨h0, fun hcon => ?_⟩
  rw [h0] at hcon
  cases hcon

/-- C6 (amended): the unit-capture sum denotes exactly the rational
hours*60 + minutes + seconds/60 with unmatched units contributing zero,
and for every duration string that does not match the clock pattern and
whose unit sum is positive, `parseMinutes` returns that sum rounded;
when the sum is zero the unit path yields nothing and parsing falls
through to the bare-number fallback.  In particular `"2h 25m"` gives
145, `"49m 21s"` gives 49, `"1h"` gives 60. -/
theorem claim6_unit_minutes :
    (∀ v : List Char, (unitSum v).toRat =
        ((findUnit 'h' v).getD 0 : ℚ) * 60 + ((findUnit 'm' v).getD 0 : ℚ) +
          ((findUnit 's' v).getD 0 : ℚ) / 60) ∧
    (∀ v : List Char, clockMatch (trimL v) = none → 0 < (unitSum (trimL v)).toRat →
        parseMinutes v = some (roundQ (unitSum (trimL v)).toRat)) ∧
    parseMinutes "2h 25m".data = some 145 ∧
    parseMinutes "49m 21s".data = some 49 ∧
    parseMinutes "1h".data = some 60 := by
  refine ⟨?_, ?_, by decide, by decide, by decide⟩
  · intro v
    rcases h1 : findUnit 'h' v with _ | n1 <;> rcases h2 : findUnit 'm' v with _ | n2 <;>
      rcases h3 : findUnit 's' v with _ | n3 <;>
      · simp only [unitSum, h1, h2, h3, JsNum.toRat, JsNum.add, JsNum.mul, JsNum.div,
          JsNum.ofNat, Option.getD_some, Option.getD_none]
        push_cast
        try norm_num
        try field_simp
        try ring
  · intro v hclock hpos
    have hb : (unitSum (trimL v)).pos = true := (JsNum.pos_iff _).mpr hpos
    rw [parseMinutes_units_eval v hclock hb,
      jsRound_eq_roundQ _ (unitSum_den_pos (trimL v))]

/-- C6 witness: the amended unit theorem applied at `"2h 25m"`. -/
theorem claim6_unit_minutes_witness :
    parseMinutes "2h 25m".data = some (roundQ (unitSum (trimL "2h 25m".data)).toRat) :=
  claim6_unit_minutes.2.1 "2h 25m".data (by decide)
    ((JsNum.pos_iff _).mp (by decide))

/-- C7: when a duration string matches neither the clock pattern nor any
unit pattern (so the unit sum is zero), `parseMinutes` interprets the
whole trimmed string as a bare decimal number of minutes, rounded to the
nearest integer (`"42"` gives 42), and an empty or wholly unparseable
string (such as `"45:00"`) yields `none`, never 0. -/
theorem claim7_bare_number :
    (∀ v : List Char, trimL v ≠ [] → clockMatch (trimL v) = none →
        findUnit 'h' (trimL v) = none → findUnit 'm' (trimL v) = none →
        findUnit 's' (trimL v) = none →
        parseMinutes v = Option.map jsRound (jsNumber (trimL v))) ∧
    (∀ (v : List Char) (a : JsNum), jsNumber v = some a → jsRound a = roundQ a.toRat) ∧
    (∀ v : List Char, trimL v = [] → parseMinutes v = none) ∧
    parseMinutes "42".data = some 42 ∧
    parseMinutes "".data = none ∧
    parseMinutes "45:00".data = none := by
  refine ⟨?_, ?_, ?_, by decide, by decide, by decide⟩
  · intro v hne hclock h1 h2 h3
    have hz : unitSum (trimL v) = ⟨0, 1⟩ := by
      simp [unitSum, h1, h2, h3]
    simp only [parseMinutes]
    rw [if_neg hne, hclock, hz, if_neg (by decide)]
    cases jsNumber (trimL v) <;> rfl
  · intro v a ha
    exact jsRound_eq_roundQ a (jsNumber_den_pos v a ha)
  · intro v hemp
    simp only [parseMinutes]
    rw [if_pos hemp]

/-- C7 witness: the bare-number theorem applied at `"42"`, the rounding
bridge at the fraction `jsNumber` produces for `"42"`, and the
empty-string case at `" "`. -/
theorem claim7_bare_number_witness :
    parseMinutes "42".data = Option.map jsRound (jsNumber (trimL "42".data)) ∧
    jsRound ⟨42, 1⟩ = roundQ (JsNum.toRat ⟨42, 1⟩) ∧
    parseMinutes " ".data = none :=
  ⟨claim7_bare_number.1 "42".data (by decide) (by decide) (by decide) (by decide)
      (by decide),
   claim7_bare_number.2.1 "42".data ⟨42, 1⟩ (by decide),
   claim7_bare_number.2.2.1 " ".data (by decide)⟩

/-! Date model.  `parseDate` in the route calls the ECMAScript `Date`
constructor; it is modelled on the Date Time String Format subset in its
UTC forms (`YYYY-MM-DD`, optionally `THH:MM`, `:SS`, `.sss`, `Z`), the
only shapes the claims depend on.  A date is kept as its calendar
fields, which is exactly the information `toISOString` prints back. -/

/-- Calendar fields of a parsed timestamp (UTC). -/
structure JSDate where
  year : ℕ
  month : ℕ
  day : ℕ
  hour : ℕ
  minute : ℕ
  second : ℕ
  ms : ℕ
deriving DecidableEq

/-- Model of `new Date(string)` on the ISO-8601 UTC subset of the
ECMAScript Date Time String Format; anything else is out of the
modelled subset and yields `none` (Invalid Date). -/
def jsDateParse (raw : List Char) : Option JSDate :=
  match raw with
  | y1 :: y2 :: y3 :: y4 :: '-' :: mo1 :: mo2 :: '-' :: d1 :: d2 :: rest =>
    if isDigitL y1 ∧ isDigitL y2 ∧ isDigitL y3 ∧ isDigitL y4 ∧ isDigitL mo1 ∧ isDigitL mo2 ∧
        isDigitL d1 ∧ isDigitL d2 then
      let y := digitsVal [y1, y2, y3, y4]
      let mo := 10 * dv mo1 + dv mo2
      let d := 10 * dv d1 + dv d2
      if 1 ≤ mo ∧ mo ≤ 12 ∧ 1 ≤ d ∧ d ≤ 31 then
        match rest with
        | [] => some ⟨y, mo, d, 0, 0, 0, 0⟩
        | 'T' :: h1 :: h2 :: ':' :: mi1 :: mi2 :: rest2 =>
          if isDigitL h1 ∧ isDigitL h2 ∧ isDigitL mi1 ∧ isDigitL mi2 then
            let hh := 10 * dv h1 + dv h2
            let mi := 10 * dv mi1 + dv mi2
            if hh ≤ 23 ∧ mi ≤ 59 then
              match rest2 with
              | [] => some ⟨y, mo, d, hh, mi, 0, 0⟩
              | ['Z'] => some ⟨y, mo, d, hh, mi, 0, 0⟩
              | ':' :: s1 :: s2 :: rest3 =>
                if isDigitL s1 ∧ isDigitL s2 ∧ 10 * dv s1 + dv s2 ≤ 59 then
                  let ss := 10 * dv s1 + dv s2
                  match rest3 with
                  | [] => some ⟨y, mo, d, hh, mi, ss, 0⟩
                  | ['Z'] => some ⟨y, mo, d, hh, mi, ss, 0⟩
                  | '.' :: p1 :: p2 :: p3 :: rest4 =>
                    if isDigitL p1 ∧ isDigitL p2 ∧ isDigitL p3 then
                      let msv := digitsVal [p1, p2, p3]
                      match rest4 with
                      | [] => some ⟨y, mo, d, hh, mi, ss, msv⟩
                      | ['Z'] => some ⟨y, mo, d, hh, mi, ss, msv⟩
                      | _ => none
                    else none
                  | _ => none
                else none
              | _ => none
            else none
          else none
        | _ => none
      else none
    else none
  | _ => none

/-- Model of `parseDate` (route.ts lines 43-48): trim, empty gives null,
otherwise the `Date` constructor with an invalid-date check. -/
def parseDateL (value : List Char) : Option JSDate :=
  let v := trimL value
  if v = [] then none else jsDateParse v

/-- Two decimal digits with a leading zero. -/
def pad2L (n : ℕ) : List Char :=
  [Nat.digitChar (n / 10 % 10), Nat.digitChar (n % 10)]

/-- Three decimal digits with leading zeros. -/
def pad3L (n : ℕ) : List Char :=
  [Nat.digitChar (n / 100 % 10), Nat.digitChar (n / 10 % 10), Nat.digitChar (n % 10)]

/-- Four decimal digits with leading zeros. -/
def pad4L (n : ℕ) : List Char :=
  [Nat.digitChar (n / 1000 % 10), Nat.digitChar (n / 100 % 10), Nat.digitChar (n / 10 % 10),
    Nat.digitChar (n % 10)]

/-- Model of `Date.prototype.toISOString`: the 24-character form
`YYYY-MM-DDTHH:mm:ss.sssZ`. -/
def toISOStringL (d : JSDate) : List Char :=
  pad4L d.year ++ '-' :: pad2L d.month ++ '-' :: pad2L d.day ++ 'T' :: pad2L d.hour ++
    ':' :: pad2L d.minute ++ ':' :: pad2L d.second ++ '.' :: pad3L d.ms ++ ['Z']

/-- Decimal digits of a natural number, most significant first, via an
explicit fuel argument so that the definition is structural. -/
def natDigitsAux : ℕ → ℕ → List Char
  | 0, _ => []
  | fuel + 1, n =>
    if n < 10 then [Nat.digitChar n]
    else natDigitsAux fuel (n / 10) ++ [Nat.digitChar (n % 10)]

/-- Decimal rendering of a natural number, the template-string
rendering `${i}` of a nonnegative integer in JavaScript. -/
def natReprL (n : ℕ) : List Char := natDigitsAux (n + 1) n

/-- Decimal rendering of an integer. -/
def intReprL (z : ℤ) : List Char :=
  if z < 0 then '-' :: natReprL z.natAbs else natReprL z.natAbs

/-- Template-string rendering `${x}` of a JavaScript number: an
integral value prints as a decimal integer.  A non-integral double
prints via shortest-round-trip formatting, outside the modelled subset;
it is rendered as an explicit fraction to stay deterministic. -/
def jsNumToStrL (a : JsNum) : List Char :=
  if a.den ≠ 0 ∧ a.num % a.den = 0 then intReprL (a.num / a.den)
  else intReprL a.num ++ '/' :: intReprL a.den

/-! The Prisma store.  Each table is a list of records; `upsert` is a
find-then-update-or-append keyed by the unique key of the schema
(`Module.code`, `Session.sessionKey`, `Student.email`,
`Attendance.(sessionId, studentId)`).  Generated cuid identifiers are
modelled as naturals drawn from one fresh-id counter. -/

/-- A `Student` row: unique email, optional display name. -/
structure Student where
  id : ℕ
  email : List Char
  name : Option (List Char)
deriving DecidableEq

/-- A `Module` row: unique code and display name. -/
structure ModuleRec where
  code : List Char
  name : List Char
deriving DecidableEq

/-- A `Session` row, uniquely keyed by the derived `sessionKey`. -/
structure SessionRec where
  id : ℕ
  sessionKey : List Char
  moduleCode : List Char
  meetingName : Option (List Char)
  startTime : Option JSDate
  endTime : Option JSDate
  durationMin : Option ℤ
  intake : List Char
  year : JsNum
deriving DecidableEq

/-- An `Attendance` row, uniquely keyed by `(sessionId, studentId)`. -/
structure AttendanceRec where
  id : ℕ
  sessionId : ℕ
  studentId : ℕ
  emailRaw : List Char
  firstJoin : Option JSDate
  lastLeave : Option JSDate
  minutes : Option ℤ
  role : Option (List Char)
  isEligible : Bool
deriving DecidableEq

/-- The whole relational store. -/
structure Store where
  modules : List ModuleRec
  sessions : List SessionRec
  students : List Student
  attendances : List AttendanceRec
  nextId : ℕ
deriving DecidableEq

/-- `prisma.module.upsert({where: {code}, update: {}, create: {code, name: code}})`. -/
def upsertModule (s : Store) (code : List Char) : Store :=
  match s.modules.find? (fun m => m.code = code) with
  | some _ => s
  | none => { s with modules := s.modules ++ [⟨code, code⟩] }

/-- The session fields written by the session upsert (both on update
and on create). -/
structure SessionData where
  meetingName : Option (List Char)
  startTime : Option JSDate
  endTime : Option JSDate
  durationMin : Option ℤ
  intake : List Char
  year : JsNum
  moduleCode : List Char
deriving DecidableEq

/-- Overwrite the payload fields of a session row, keeping its identity
and key. -/
def SessionRec.withData (r : SessionRec) (d : SessionData) : SessionRec :=
  { r with
    meetingName := d.meetingName
    startTime := d.startTime
    endTime := d.endTime
    durationMin := d.durationMin
    intake := d.intake
    year := d.year
    moduleCode := d.moduleCode }

/-- `prisma.session.upsert` keyed by `sessionKey`: on conflict overwrite
the metadata, otherwise create a fresh row.  Returns the resulting row
(the source uses its `id` for the attendance writes). -/
def upsertSession (s : Store) (key : List Char) (d : SessionData) : SessionRec × Store :=
  match s.sessions.find? (fun x => x.sessionKey = key) with
  | some old =>
    let updated := old.withData d
    (updated, { s with
      sessions := s.sessions.map (fun x => if x.sessionKey = key then updated else x) })
  | none =>
    let created : SessionRec :=
      ⟨s.nextId, key, d.moduleCode, d.meetingName, d.startTime, d.endTime, d.durationMin,
        d.intake, d.year⟩
    (created, { s with sessions := s.sessions ++ [created], nextId := s.nextId + 1 })

/-- `prisma.student.upsert` keyed by email: `update: {name: name ?? undefined}`
refreshes the name only when the row provides one; `create` records the
possibly-null name.  Returns the resulting row. -/
def upsertStudent (s : Store) (key : List Char) (name : Option (List Char)) :
    Student × Store :=
  match s.students.find? (fun x => x.email = key) with
  | some old =>
    let updated : Student :=
      { old with name := match name with | some n => some n | none => old.name }
    (updated, { s with
      students := s.students.map (fun x => if x.email = key then updated else x) })
  | none =>
    let created : Student := ⟨s.nextId, key, name⟩
    (created, { s with students := s.students ++ [created], nextId := s.nextId + 1 })

/-- The attendance fields written by the attendance upsert (both on
update and on create). -/
structure AttendanceData where
  emailRaw : List Char
  firstJoin : Option JSDate
  lastLeave : Option JSDate
  minutes : Option ℤ
  role : Option (List Char)
  isEligible : Bool
deriving DecidableEq

/-- Overwrite the payload fields of an attendance row, keeping its
identity and key pair. -/
def AttendanceRec.withData (r : AttendanceRec) (d : AttendanceData) : AttendanceRec :=
  { r with
    emailRaw := d.emailRaw
    firstJoin := d.firstJoin
    lastLeave := d.lastLeave
    minutes := d.minutes
    role := d.role
    isEligible := d.isEligible }

/-- `prisma.attendance.upsert` keyed by `(sessionId, studentId)`. -/
def upsertAttendance (s : Store) (sid stuId : ℕ) (d : AttendanceData) : Store :=
  match s.attendances.find? (fun x => x.sessionId = sid ∧ x.studentId = stuId) with
  | some old =>
    let updated := old.withData d
    let rewritten := s.attendances.map
      (fun x => if x.sessionId = sid ∧ x.studentId = stuId then updated else x)
    { s with attendances := rewritten }
  | none =>
    { s with
      attendances := s.attendances ++
        [⟨s.nextId, sid, stuId, d.emailRaw, d.firstJoin, d.lastLeave, d.minutes, d.role,
          d.isEligible⟩]
      nextId := s.nextId + 1 }

/-! Request parsing helpers of the route. -/

/-- Model of `normIntake` (route.ts lines 61-67). -/
def normIntake (v : List Char) : List Char :=
  let s := lowerL (trimL v)
  if s = "spring".data then "Spring".data
  else if s = "summer".data then "Summer".data
  else if s = "autumn".data ∨ s = "fall".data then "Autumn".data
  else trimL v

/-- Model of `normModuleCode` (route.ts lines 69-71). -/
def normModuleCode (v : List Char) : List Char := upperL (trimL v)

/-- The `\w` word-character class of JavaScript regular expressions. -/
def isWordChar (c : Char) : Bool :=
  isDigitL c ∨ ('a' ≤ c ∧ c ≤ 'z') ∨ ('A' ≤ c ∧ c ≤ 'Z') ∨ c = '_'

/-- ASCII letter test, the `[A-Z]` class under the `i` flag. -/
def isAsciiLetter (c : Char) : Bool :=
  ('a' ≤ c ∧ c ≤ 'z') ∨ ('A' ≤ c ∧ c ≤ 'Z')

/-- Attempt to match `[A-Z]{2}\d{4}NU\b` (case-insensitively) at the
head of the list. -/
def moduleCodeHere (l : List Char) : Option (List Char) :=
  match l with
  | c1 :: c2 :: d1 :: d2 :: d3 :: d4 :: n :: u :: rest =>
    let boundaryOk : Bool := match rest with | [] => true | r :: _ => ¬ isWordChar r
    if isAsciiLetter c1 ∧ isAsciiLetter c2 ∧ isDigitL d1 ∧ isDigitL d2 ∧ isDigitL d3 ∧
        isDigitL d4 ∧ (n = 'n' ∨ n = 'N') ∧ (u = 'u' ∨ u = 'U') ∧ boundaryOk
    then some [c1, c2, d1, d2, d3, d4, n, u] else none
  | _ => none

/-- Left-to-right scan for the first `\b[A-Z]{2}\d{4}NU\b` match; the
boolean tracks whether the previous character was a word character
(the `\b` on the left requires it was not). -/
def findModuleCode : Bool → List Char → Option (List Char)
  | _, [] => none
  | prevWord, c :: cs =>
    match (if prevWord then none else moduleCodeHere (c :: cs)) with
    | some m => some m
    | none => findModuleCode (isWordChar c) cs

/-- Model of `parseModuleCodeFromFilename` (route.ts lines 7-10). -/
def parseModuleCodeFromFilename (name : List Char) : Option (List Char) :=
  (findModuleCode false name).map upperL

/-! Summary extraction and section location. -/

/-- Assignment into the `summary` record object: overwrite an existing
key in place, append a new one. -/
def setKV (acc : List (List Char × List Char)) (k v : List Char) :
    List (List Char × List Char) :=
  if acc.any (fun p => p.1 = k) then acc.map (fun p => if p.1 = k then (k, v) else p)
  else acc ++ [(k, v)]

/-- Lookup in the summary record. -/
def lookupKV (acc : List (List Char × List Char)) (k : List Char) : Option (List Char) :=
  (acc.find? (fun p => p.1 = k)).map (fun p => p.2)

/-- Model of the summary loop (route.ts lines 117-126): collect trimmed
`key⟨tab⟩value` pairs from every line, stopping after the line that
trims to `"2. Participants"`. -/
def summaryFold : List (List Char) → List (List Char × List Char) →
    List (List Char × List Char)
  | [], acc => acc
  | l :: ls, acc =>
    let acc' := match splitCharL '\t' l with
      | k :: v :: _ =>
        let ks := trimL k
        let vs := trimL v
        if ks ≠ [] ∧ vs ≠ [] then setKV acc ks vs else acc
      | _ => acc
    if trimL l = "2. Participants".data then acc' else summaryFold ls acc'

/-- Model of `findIndex` with a start offset (route.ts lines 50-59);
`none` is the `-1` outcome. -/
def findIndexFrom (lines : List (List Char)) (p : List Char → Bool) (start : ℕ) :
    Option ℕ :=
  ((lines.enum.drop start).find? (fun x => p x.2)).map (fun x => x.1)

/-- The Section 3 marker test `/^3\.\s*In-Meeting Activities/i` applied
to the trimmed line. -/
def isSection3 (l : List Char) : Bool :=
  match trimL l with
  | '3' :: '.' :: rest =>
    startsWithL (lowerL "In-Meeting Activities".data) (lowerL (rest.dropWhile jsSpace))
  | _ => false

/-- The participants header test (route.ts lines 181-188): starts with
`"Name\t"`, contains `"\tEmail\t"` and contains `"In-Meeting Duration"`. -/
def isHeaderLine (l : List Char) : Bool :=
  startsWithL "Name\t".data l ∧ containsL "\tEmail\t".data l ∧
    containsL "In-Meeting Duration".data l

/-- Model of `colIndex` (route.ts line 201): position of the exact
column name in the trimmed header cells; `none` is `-1`. -/
def colIndexL (header : List (List Char)) (name : List Char) : Option ℕ :=
  ((header.enum.find? (fun x => x.2 = name))).map (fun x => x.1)

/-- Derived session identity key (route.ts lines 138-141): the
lowercased pipe-joined intake, year, module code, ISO start, ISO end and
meeting title, with the empty string for an absent part. -/
def sessionKeyL (intake : List Char) (year : JsNum) (moduleCode : List Char)
    (st et : Option JSDate) (title : Option (List Char)) : List Char :=
  lowerL (intake ++ '|' :: jsNumToStrL year ++ '|' :: moduleCode ++
    '|' :: (match st with | some d => toISOStringL d | none => []) ++
    '|' :: (match et with | some d => toISOStringL d | none => []) ++
    '|' :: title.getD [])

/-! The participant-row loop. -/

/-- Resolved column positions; the three required ones are total, the
optional ones mirror the `-1` checks of the source. -/
structure Cols where
  name : ℕ
  email : ℕ
  firstJoin : Option ℕ
  lastLeave : Option ℕ
  duration : ℕ
  role : Option ℕ
deriving DecidableEq

/-- `parts[i] ?? ""` on the split cells. -/
def getPart (parts : List (List Char)) (i : ℕ) : List Char := parts.getD i []

/-- The institutional student-domain suffix tested for eligibility
(route.ts line 243). -/
def eligibleSuffix : List Char := "@stu.nexteducationgroup.com".data

/-- Synthetic placeholder identity for an emailless row at absolute line
index `i` (route.ts lines 238, 240). -/
def placeholderEmail (i : ℕ) : List Char :=
  "unknown-".data ++ natReprL i ++ "@invalid.local".data

/-- Everything the loop body derives from one raw participant line
(route.ts lines 225-252): `none` when the line is skipped (blank, or
fewer than two tab-separated cells). -/
structure RowData where
  key : List Char
  nameOpt : Option (List Char)
  emailRaw : List Char
  isEligible : Bool
  firstJoin : Option JSDate
  lastLeave : Option JSDate
  minutes : Option ℤ
  role : Option (List Char)
deriving DecidableEq

/-- Parse one participant line at absolute index `i`. -/
def mkRowData (cols : Cols) (i : ℕ) (line : List Char) : Option RowData :=
  if trimL line = [] then none
  else
    let parts := splitCharL '\t' line
    if parts.length < 2 then none
    else
      let nameT := trimL (getPart parts cols.name)
      let emailRaw := trimL (getPart parts cols.email)
      let email := lowerL emailRaw
      some
        { key := if email = [] then placeholderEmail i else email
          nameOpt := if nameT = [] then none else some nameT
          emailRaw := emailRaw
          isEligible := endsWithL email eligibleSuffix
          firstJoin := match cols.firstJoin with
            | some j => parseDateL (getPart parts j)
            | none => none
          lastLeave := match cols.lastLeave with
            | some j => parseDateL (getPart parts j)
            | none => none
          minutes := parseMinutes (getPart parts cols.duration)
          role := match cols.role with
            | some j => let r := trimL (getPart parts j); if r = [] then none else some r
            | none => none }

/-- The two writes of the loop body: upsert the student by its email
identity, then upsert the attendance row keyed by the session and the
resolved student. -/
def applyRow (sid : ℕ) (s : Store) (rd : RowData) : Store :=
  let us := upsertStudent s rd.key rd.nameOpt
  upsertAttendance us.2 sid us.1.id
    ⟨rd.emailRaw, rd.firstJoin, rd.lastLeave, rd.minutes, rd.role, rd.isEligible⟩

/-- Mutable state of the participant loop: the store plus the three
counters of the source. -/
structure LoopState where
  store : Store
  rowsRead : ℕ
  attendanceUpserted : ℕ
  eligibleCount : ℕ
deriving DecidableEq

/-- One iteration of the participant loop over the (absolute index,
line) pair. -/
def processLine (sid : ℕ) (cols : Cols) (st : LoopState) (il : ℕ × List Char) :
    LoopState :=
  match mkRowData cols il.1 il.2 with
  | none => st
  | some rd =>
    { store := applyRow sid st.store rd
      rowsRead := st.rowsRead + 1
      attendanceUpserted := st.attendanceUpserted + 1
      eligibleCount := st.eligibleCount + (if rd.isEligible then 1 else 0) }

/-- The whole participant loop. -/
def runRows (sid : ℕ) (cols : Cols) (rows : List (ℕ × List Char)) (st : LoopState) :
    LoopState :=
  rows.foldl (processLine sid cols) st

/-! The route handler. -/

/-- The multipart form handed to the route: the three form fields (as
raw strings) and the uploaded file (presence, name, decoded text). -/
structure ImportRequest where
  intake : List Char
  year : List Char
  moduleCode : List Char
  hasFile : Bool
  fileName : List Char
  fileText : List Char
deriving DecidableEq

/-- The success payload of the route response. -/
structure OkPayload where
  moduleCode : List Char
  intake : List Char
  year : JsNum
  sessionId : ℕ
  rowsRead : ℕ
  attendanceUpserted : ℕ
  eligibleCount : ℕ
  durationMin : Option ℤ
deriving DecidableEq

/-- The route response: a JSON error with an HTTP status, or the
success payload. -/
inductive ImportResponse where
  | err (status : ℕ) (msg : List Char)
  | ok (payload : OkPayload)
deriving DecidableEq

/-- Body of the import once the module code is resolved (route.ts lines
111-285): decode-split the text, extract the summary, upsert Module and
Session, locate Section 2, locate and check the header, then run the
participant loop.  Factored out of `POST` so that the per-phase lemmas
can speak about it directly. -/
def importWithModule (req : ImportRequest) (s : Store) (intake : List Char) (year : JsNum)
    (moduleCode : List Char) : ImportResponse × Store :=
  let lines := splitLinesJ req.fileText
  let summary := summaryFold lines []
  let meetingName := lookupKV summary "Meeting title".data
  let startTime := parseDateL ((lookupKV summary "Start time".data).getD [])
  let endTime := parseDateL ((lookupKV summary "End time".data).getD [])
  let durationMin :=
    match parseMinutes ((lookupKV summary "Meeting duration".data).getD []) with
    | some m => some m
    | none => parseMinutes ((lookupKV summary "Duration".data).getD [])
  let key := sessionKeyL intake year moduleCode startTime endTime meetingName
  let s1 := upsertModule s moduleCode
  let us := upsertSession s1 key
    ⟨meetingName, startTime, endTime, durationMin, intake, year, moduleCode⟩
  let sess := us.1
  let s2 := us.2
  match findIndexFrom lines (fun l => trimL l = "2. Participants".data) 0 with
  | none => (.err 400 "Could not find '2. Participants' section.".data, s2)
  | some idx2 =>
    let sec2End := match findIndexFrom lines isSection3 (idx2 + 1) with
      | some i => i
      | none => lines.length
    match findIndexFrom lines isHeaderLine (idx2 + 1) with
    | none => (.err 400 "Could not find Participants table header for Section 2 (with 'In-Meeting Duration').".data, s2)
    | some hIdx =>
      if sec2End ≤ hIdx then
        (.err 400 "Could not find Participants table header for Section 2 (with 'In-Meeting Duration').".data, s2)
      else
        let header := (splitCharL '\t' (lines.getD hIdx [])).map trimL
        match colIndexL header "Name".data, colIndexL header "Email".data,
          colIndexL header "In-Meeting Duration".data with
        | some iN, some iE, some iD =>
          let cols : Cols := ⟨iN, iE, colIndexL header "First Join".data,
            colIndexL header "Last Leave".data, iD, colIndexL header "Role".data⟩
          let window := (lines.enum.drop (hIdx + 1)).take (sec2End - (hIdx + 1))
          let fin := runRows sess.id cols window ⟨s2, 0, 0, 0⟩
          (.ok ⟨moduleCode, intake, year, sess.id, fin.rowsRead,
            fin.attendanceUpserted, fin.eligibleCount, durationMin⟩, fin.store)
        | _, _, _ =>
          (.err 400 "Missing required columns in Section 2 (need Name, Email, In-Meeting Duration).".data, s2)

/-- Model of the `POST` handler (route.ts lines 73-289): validate the
form fields, resolve the module code, then run the import body.  The
500-class catch-all for storage failures is outside the model (the
modelled store never throws). -/
def POST (req : ImportRequest) (s : Store) : ImportResponse × Store :=
  let intake := normIntake req.intake
  match jsNumber req.year with
  | none => (.err 400 "Missing or invalid intake/year. Please select Intake + Year.".data, s)
  | some year =>
    if intake = [] ∨ year.num = 0 then
      (.err 400 "Missing or invalid intake/year. Please select Intake + Year.".data, s)
    else if ¬ req.hasFile then (.err 400 "No file uploaded".data, s)
    else
      let moduleFromForm := normModuleCode req.moduleCode
      match (if moduleFromForm ≠ [] then some moduleFromForm
        else parseModuleCodeFromFilename req.fileName) with
      | none => (.err 400 "Missing Module Code. Please select a Module Code (or include it in the filename).".data, s)
      | some moduleCode => importWithModule req s intake year moduleCode

/-! Store-component preservation lemmas. -/

/-- The module upsert leaves students untouched. -/
theorem upsertModule_students (s : Store) (c : List Char) :
    (upsertModule s c).students = s.students := by
  rw [upsertModule]
  split <;> rfl

/-- The module upsert leaves attendances untouched. -/
theorem upsertModule_attendances (s : Store) (c : List Char) :
    (upsertModule s c).attendances = s.attendances := by
  rw [upsertModule]
  split <;> rfl

/-- The session upsert leaves students untouched. -/
theorem upsertSession_students (s : Store) (k : List Char) (d : SessionData) :
    (upsertSession s k d).2.students = s.students := by
  rw [upsertSession]
  split <;> rfl

/-- The session upsert leaves attendances untouched. -/
theorem upsertSession_attendances (s : Store) (k : List Char) (d : SessionData) :
    (upsertSession s k d).2.attendances = s.attendances := by
  rw [upsertSession]
  split <;> rfl

/-- The student upsert leaves attendances untouched. -/
theorem upsertStudent_attendances (s : Store) (k : List Char) (n : Option (List Char)) :
    (upsertStudent s k n).2.attendances = s.attendances := by
  rw [upsertStudent]
  split <;> rfl

/-- After the module and session upserts, students and attendances are
still those of the incoming store. -/
theorem store_after_session (s : Store) (mc key : List Char) (d : SessionData) :
    (upsertSession (upsertModule s mc) key d).2.students = s.students ∧
    (upsertSession (upsertModule s mc) key d).2.attendances = s.attendances :=
  ⟨by rw [upsertSession_students, upsertModule_students],
   by rw [upsertSession_attendances, upsertModule_attendances]⟩

/-- When no line satisfies the predicate, the index search fails. -/
theorem findIndexFrom_none (lines : List (List Char)) (p : List Char → Bool) (start : ℕ)
    (h : ∀ l ∈ lines, ¬ p l = true) : findIndexFrom lines p start = none := by
  rw [findIndexFrom]
  have hf : ((lines.enum.drop start).find? (fun x => p x.2)) = none := by
    rw [List.find?_eq_none]
    intro x hx
    exact h x.2 (List.snd_mem_of_mem_enumFrom (List.mem_of_mem_drop hx))
  rw [hf]
  rfl

/-! Claims C1 and C3: behaviour of the request-validation and
section-location failure paths. -/

/-- The empty store, the state used by the concrete scenarios. -/
def emptyStore : Store := ⟨[], [], [], [], 0⟩

/-- A valid form whose file lacks the `2. Participants` marker. -/
def c1Request : ImportRequest :=
  { intake := "Spring".data
    year := "2026".data
    moduleCode := "MN5070NU".data
    hasFile := true
    fileName := "report.csv".data
    fileText := "hello\nworld".data }

/-- C1 counterexample: the decoded file has no `2. Participants` line,
the response is the 400-class marker error, yet one Module row and one
Session row were written by the request, contradicting the zero-writes
part of the claim. -/
theorem claim1_no_marker_cex :
    (∀ l ∈ splitLinesJ c1Request.fileText, ¬ trimL l = "2. Participants".data) ∧
    (POST c1Request emptyStore).1 =
      .err 400 "Could not find '2. Participants' section.".data ∧
    (POST c1Request emptyStore).2.modules.length = 1 ∧
    (POST c1Request emptyStore).2.sessions.length = 1 := by
  refine ⟨by decide, by decide, by decide, by decide⟩

/-- C1 (amended): when the decoded file contains no line that trims to
`2. Participants`, the request always answers with a 400-class error
and writes no Student and no Attendance record; the Module and Session
upserts, however, have already run by the time the marker is missed, so
those two tables may gain or update a row. -/
theorem claim1_no_marker (req : ImportRequest) (s : Store)
    (hmk : ∀ l ∈ splitLinesJ req.fileText, ¬ trimL l = "2. Participants".data) :
    (∃ msg, (POST req s).1 = ImportResponse.err 400 msg) ∧
    (POST req s).2.students = s.students ∧
    (POST req s).2.attendances = s.attendances := by
  have hfind : findIndexFrom (splitLinesJ req.fileText)
      (fun l => trimL l = "2. Participants".data) 0 = none :=
    findIndexFrom_none _ _ _ (by
      intro l hl
      simpa using hmk l hl)
  have tail : ∀ (intake : List Char) (year : JsNum) (mc : List Char),
      (∃ msg, (importWithModule req s intake year mc).1 = ImportResponse.err 400 msg) ∧
      (importWithModule req s intake year mc).2.students = s.students ∧
      (importWithModule req s intake year mc).2.attendances = s.attendances := by
    intro intake year mc
    simp only [importWithModule]
    rw [hfind]
    exact ⟨⟨_, rfl⟩, (store_after_session s _ _ _).1, (store_after_session s _ _ _).2⟩
  simp only [POST]
  split
  · exact ⟨⟨_, rfl⟩, rfl, rfl⟩
  · split_ifs with h1 h2 h3
    · exact ⟨⟨_, rfl⟩, rfl, rfl⟩
    · exact tail _ _ _
    · split
      · exact ⟨⟨_, rfl⟩, rfl, rfl⟩
      · exact tail _ _ _
    · exact ⟨⟨_, rfl⟩, rfl, rfl⟩

/-- C1 witness: the amended theorem applied to the concrete
marker-free request against the empty store. -/
theorem claim1_no_marker_witness :
    (∃ msg, (POST c1Request emptyStore).1 = ImportResponse.err 400 msg) ∧
    (POST c1Request emptyStore).2.students = emptyStore.students ∧
    (POST c1Request emptyStore).2.attendances = emptyStore.attendances :=
  claim1_no_marker c1Request emptyStore (by decide)

/-- A form whose intake is `Winter` (normalizing to none of the three
intakes) and whose year is `-3` (not a positive integer), over a file
with a valid Section 2. -/
def c3Request : ImportRequest :=
  { intake := "Winter".data
    year := "-3".data
    moduleCode := "MN5070NU".data
    hasFile := true
    fileName := "x".data
    fileText := "2. Participants\nName\tEmail\tIn-Meeting Duration".data }

/-- C3 counterexample: the intake `Winter` does not normalize to
Spring, Summer or Autumn and the year parses to the negative number -3,
yet the import does not abort: it completes with the success response
(and stores the `Winter` cohort), contradicting the claimed 400-class
abort. -/
theorem claim3_validation_cex :
    normIntake c3Request.intake ≠ "Spring".data ∧
    normIntake c3Request.intake ≠ "Summer".data ∧
    normIntake c3Request.intake ≠ "Autumn".data ∧
    jsNumber c3Request.year = some ⟨-3, 1⟩ ∧
    (POST c3Request emptyStore).1 =
      .ok ⟨"MN5070NU".data, "Winter".data, ⟨-3, 1⟩, 0, 0, 0, 0, none⟩ := by
  refine ⟨by decide, by decide, by decide, by decide, by decide⟩

/-- C3 (amended): the import aborts with the 400-class intake/year
error exactly when the normalized intake is the empty string (i.e. the
raw intake trims to nothing) or the year field is `NaN` or converts to
the number zero, before any parsing of file content (the store is
untouched); any other intake text (e.g. `Winter`) and any nonzero year
(including negative or fractional ones) pass validation. -/
theorem claim3_validation :
    (∀ (req : ImportRequest) (s : Store),
        (normIntake req.intake = [] ∨ jsNumber req.year = none ∨
          (∃ y, jsNumber req.year = some y ∧ y.num = 0)) →
        POST req s =
          (.err 400 "Missing or invalid intake/year. Please select Intake + Year.".data, s)) ∧
    (∀ v : List Char, normIntake v = [] ↔ trimL v = []) := by
  constructor
  · rintro req s (hi | hy | ⟨y, hy, hz⟩)
    · simp only [POST]
      split
      · rfl
      · rw [if_pos (Or.inl hi)]
    · simp only [POST]
      rw [hy]
    · simp only [POST]
      rw [hy]
      exact if_pos (Or.inr hz)
  · intro v
    simp only [normIntake]
    split_ifs with a b c
    · refine ⟨fun h => absurd h (by decide), fun h => ?_⟩
      rw [h] at a
      exact absurd a (by decide)
    · refine ⟨fun h => absurd h (by decide), fun h => ?_⟩
      rw [h] at b
      exact absurd b (by decide)
    · refine ⟨fun h => absurd h (by decide), fun h => ?_⟩
      rcases c with c | c
      · rw [h] at c
        exact absurd c (by decide)
      · rw [h] at c
        exact absurd c (by decide)
    · exact Iff.rfl

/-- C3 witness: the amended validation theorem applied to a request
whose intake trims to the empty string. -/
theorem claim3_validation_witness :
    POST ⟨"  ".data, "2026".data, "MN5070NU".data, true, "x".data, [] ⟩ emptyStore =
      (.err 400 "Missing or invalid intake/year. Please select Intake + Year.".data,
        emptyStore) :=
  claim3_validation.1 _ emptyStore (Or.inl (by decide))

/-! Claim C8: the eligibility flag. -/

/-- The eligibility invariant of a stored attendance row: the flag is
exactly the suffix test on the lowercased stored raw email (the raw
email is stored trimmed, and the flag was computed from its lowercased
form). -/
def EligOk (a : AttendanceRec) : Prop :=
  a.isEligible = endsWithL (lowerL a.emailRaw) eligibleSuffix

/-- The attendance upsert writes rows satisfying the eligibility
invariant whenever the written data does, and preserves it elsewhere. -/
theorem upsertAttendance_elig (s : Store) (sid stuId : ℕ) (d : AttendanceData)
    (hs : ∀ a ∈ s.attendances, EligOk a)
    (hd : d.isEligible = endsWithL (lowerL d.emailRaw) eligibleSuffix) :
    ∀ a ∈ (upsertAttendance s sid stuId d).attendances, EligOk a := by
  simp only [upsertAttendance]
  split
  · intro a ha
    simp only [List.mem_map] at ha
    obtain ⟨x, hx, rfl⟩ := ha
    split
    · exact hd
    · exact hs x hx
  · intro a ha
    rcases List.mem_append.mp ha with hx | hx
    · exact hs a hx
    · rcases List.mem_singleton.mp hx with rfl
      exact hd

/-- The loop body keeps the eligibility invariant. -/
theorem applyRow_elig (sid : ℕ) (s : Store) (rd : RowData)
    (hs : ∀ a ∈ s.attendances, EligOk a)
    (hd : rd.isEligible = endsWithL (lowerL rd.emailRaw) eligibleSuffix) :
    ∀ a ∈ (applyRow sid s rd).attendances, EligOk a := by
  simp only [applyRow]
  refine upsertAttendance_elig _ _ _ _ ?_ hd
  rw [upsertStudent_attendances]
  exact hs

/-- A parsed row always carries the eligibility flag computed as the
suffix test on its trimmed, lowercased email cell. -/
theorem mkRowData_elig (cols : Cols) (i : ℕ) (line : List Char) (rd : RowData)
    (h : mkRowData cols i line = some rd) :
    rd.isEligible = endsWithL (lowerL rd.emailRaw) eligibleSuffix ∧
    rd.emailRaw = trimL (getPart (splitCharL '\t' line) cols.email) := by
  simp only [mkRowData] at h
  split_ifs at h <;> cases h <;> exact ⟨rfl, rfl⟩

/-- One loop iteration keeps the eligibility invariant. -/
theorem processLine_elig (sid : ℕ) (cols : Cols) (st : LoopState) (il : ℕ × List Char)
    (h : ∀ a ∈ st.store.attendances, EligOk a) :
    ∀ a ∈ (processLine sid cols st il).store.attendances, EligOk a := by
  simp only [processLine]
  split
  · exact h
  · rename_i rd hrd
    exact applyRow_elig _ _ _ h (mkRowData_elig _ _ _ _ hrd).1

/-- The whole loop keeps the eligibility invariant. -/
theorem runRows_elig (sid : ℕ) (cols : Cols) (rows : List (ℕ × List Char)) :
    ∀ st : LoopState, (∀ a ∈ st.store.attendances, EligOk a) →
      ∀ a ∈ (runRows sid cols rows st).store.attendances, EligOk a := by
  induction rows with
  | nil => exact fun st h => h
  | cons r rest ih =>
    intro st h
    rw [runRows, List.foldl_cons]
    exact ih _ (processLine_elig sid cols st r h)

/-- The import body keeps the eligibility invariant. -/
theorem importWithModule_elig (req : ImportRequest) (s : Store) (intake : List Char)
    (year : JsNum) (mc : List Char) (hs : ∀ a ∈ s.attendances, EligOk a) :
    ∀ a ∈ (importWithModule req s intake year mc).2.attendances, EligOk a := by
  have hs2 : ∀ (key : List Char) (d : SessionData),
      ∀ a ∈ (upsertSession (upsertModule s mc) key d).2.attendances, EligOk a := by
    intro key d a ha
    rw [(store_after_session s mc key d).2] at ha
    exact hs a ha
  simp only [importWithModule]
  split
  · exact hs2 _ _
  · split
    · exact hs2 _ _
    · split_ifs with hle
      · exact hs2 _ _
      · split
        · exact runRows_elig _ _ _ _ (hs2 _ _)
        · exact hs2 _ _

/-- C8: for every parsed participant row the derived eligibility flag
is true exactly when the trimmed, lowercased email cell ends with
`@stu.nexteducationgroup.com`, and the flag stored in every Attendance
row written by a request is the suffix test of the row's stored
lowercased raw email (it is computed once at import time and stored). -/
theorem claim8_eligibility :
    (∀ (cols : Cols) (i : ℕ) (line : List Char) (rd : RowData),
        mkRowData cols i line = some rd →
        rd.isEligible =
          endsWithL (lowerL (trimL (getPart (splitCharL '\t' line) cols.email)))
            eligibleSuffix) ∧
    (∀ (req : ImportRequest) (s : Store), (∀ a ∈ s.attendances, EligOk a) →
        ∀ a ∈ (POST req s).2.attendances, EligOk a) := by
  constructor
  · intro cols i line rd h
    obtain ⟨h1, h2⟩ := mkRowData_elig cols i line rd h
    rw [h1, h2]
  · intro req s hs
    simp only [POST]
    split
    · exact hs
    · split_ifs with h1 h2 h3
      · exact hs
      · exact importWithModule_elig _ _ _ _ _ hs
      · split
        · exact hs
        · exact importWithModule_elig _ _ _ _ _ hs
      · exact hs

/-- A one-row import whose email cell has mixed case in the
institutional student domain. -/
def c8Request : ImportRequest :=
  { intake := "Spring".data
    year := "2026".data
    moduleCode := "MN5070NU".data
    hasFile := true
    fileName := "x".data
    fileText :=
      "2. Participants\nName\tEmail\tIn-Meeting Duration\nAlice\tAlice@STU.NextEducationGroup.com\t45".data }

/-- The attendance row the `c8Request` import writes. -/
def c8Attendance : AttendanceRec :=
  ⟨2, 0, 1, "Alice@STU.NextEducationGroup.com".data, none, none, some 45, none, true⟩

/-- C8 witness: the invariant theorem applied to the one-row request
against the empty store, at the concrete row it stores. -/
theorem claim8_eligibility_witness :
    c8Attendance.isEligible = endsWithL (lowerL c8Attendance.emailRaw) eligibleSuffix :=
  claim8_eligibility.2 c8Request emptyStore
    (fun a ha => absurd ha (List.not_mem_nil a)) c8Attendance (by decide)

/-! Claim C9: synthetic identities for emailless rows. -/

/-- A digit character evaluates back to its digit. -/
theorem dv_digitChar (n : ℕ) (h : n < 10) : dv (Nat.digitChar n) = n := by
  interval_cases n <;> decide

/-- Appending a digit multiplies the accumulated value by ten. -/
theorem digitsVal_append_digit (l : List Char) (c : Char) :
    digitsVal (l ++ [c]) = 10 * digitsVal l + dv c := by
  simp [digitsVal, List.foldl_append]

/-- The decimal rendering evaluates back to the rendered number. -/
theorem digitsVal_natDigitsAux (fuel : ℕ) :
    ∀ n : ℕ, n < fuel → digitsVal (natDigitsAux fuel n) = n := by
  induction fuel with
  | zero => omega
  | succ f ih =>
    intro n h
    rw [natDigitsAux]
    split_ifs with h10
    · simp only [digitsVal, List.foldl_cons, List.foldl_nil, Nat.mul_zero, Nat.zero_add]
      exact dv_digitChar n h10
    · rw [digitsVal_append_digit, ih (n / 10) (by omega), dv_digitChar (n % 10) (by omega)]
      omega

/-- Decimal rendering of naturals is injective. -/
theorem natReprL_inj (m n : ℕ) (h : natReprL m = natReprL n) : m = n := by
  have hm := digitsVal_natDigitsAux (m + 1) m (by omega)
  have hn := digitsVal_natDigitsAux (n + 1) n (by omega)
  rw [natReprL, natReprL] at h
  rw [← hm, ← hn, h]

/-- Distinct line indices synthesize distinct placeholder emails. -/
theorem placeholderEmail_inj (i j : ℕ) (h : placeholderEmail i = placeholderEmail j) :
    i = j := by
  rw [placeholderEmail, placeholderEmail, List.append_assoc, List.append_assoc] at h
  exact natReprL_inj _ _ (List.append_cancel_right (List.append_cancel_left h))

/-- When the resolved student key is new to the store and the
attendance pair key is unused, the loop body creates exactly one
student and exactly one attendance row, the student carrying the key. -/
theorem applyRow_new_student (sid : ℕ) (s : Store) (rd : RowData)
    (hstu : ∀ x ∈ s.students, ¬ x.email = rd.key)
    (hatt : ∀ a ∈ s.attendances, ¬(a.sessionId = sid ∧ a.studentId = s.nextId)) :
    (applyRow sid s rd).students.length = s.students.length + 1 ∧
    (applyRow sid s rd).attendances.length = s.attendances.length + 1 ∧
    ∃ stu ∈ (applyRow sid s rd).students, stu.email = rd.key ∧ stu.id = s.nextId := by
  have hfind : s.students.find? (fun x => x.email = rd.key) = none := by
    rw [List.find?_eq_none]
    intro x hx
    simpa using hstu x hx
  have hfa : s.attendances.find? (fun x => x.sessionId = sid ∧ x.studentId = s.nextId) = none := by
    rw [List.find?_eq_none]
    intro a ha
    simpa using hatt a ha
  simp only [applyRow, upsertStudent, hfind, upsertAttendance, hfa]
  refine ⟨by simp, by simp, ⟨s.nextId, rd.key, rd.nameOpt⟩, by simp, rfl, rfl⟩

/-- C9: an emailless participant row is keyed by the synthetic
placeholder `unknown-<line index>@invalid.local`; placeholders of
distinct indices are distinct; and a row whose key is new produces
exactly one new Student and exactly one new Attendance row attributed
to it. -/
theorem claim9_placeholder :
    (∀ (cols : Cols) (i : ℕ) (line : List Char) (rd : RowData),
        mkRowData cols i line = some rd →
        trimL (getPart (splitCharL '\t' line) cols.email) = [] →
        rd.key = placeholderEmail i) ∧
    (∀ i j : ℕ, i ≠ j → placeholderEmail i ≠ placeholderEmail j) ∧
    (∀ (sid : ℕ) (s : Store) (rd : RowData),
        (∀ x ∈ s.students, ¬ x.email = rd.key) →
        (∀ a ∈ s.attendances, ¬(a.sessionId = sid ∧ a.studentId = s.nextId)) →
        (applyRow sid s rd).students.length = s.students.length + 1 ∧
        (applyRow sid s rd).attendances.length = s.attendances.length + 1 ∧
        ∃ stu ∈ (applyRow sid s rd).students, stu.email = rd.key ∧ stu.id = s.nextId) := by
  refine ⟨?_, ?_, applyRow_new_student⟩
  · intro cols i line rd h hemp
    simp only [mkRowData, hemp, lowerL, List.map_nil] at h
    split_ifs at h <;> cases h <;> rfl
  · intro i j hne h
    exact hne (placeholderEmail_inj i j h)

/-- A row value for an emailless participant at line index 4. -/
def c9Row : RowData :=
  ⟨placeholderEmail 4, none, [], false, none, none, none, none⟩

/-- C9 witness: distinct placeholders at 3 and 4, and the creation
lemma applied to the empty store. -/
theorem claim9_placeholder_witness :
    placeholderEmail 3 ≠ placeholderEmail 4 ∧
    (applyRow 0 emptyStore c9Row).students.length = emptyStore.students.length + 1 ∧
    (applyRow 0 emptyStore c9Row).attendances.length = emptyStore.attendances.length + 1 :=
  ⟨claim9_placeholder.2.1 3 4 (by decide),
   (claim9_placeholder.2.2 0 emptyStore c9Row (fun x hx => absurd hx (List.not_mem_nil x))
      (fun a ha => absurd ha (List.not_mem_nil a))).1,
   (claim9_placeholder.2.2 0 emptyStore c9Row (fun x hx => absurd hx (List.not_mem_nil x))
      (fun a ha => absurd ha (List.not_mem_nil a))).2.1⟩

/-! Claim C10: the response counters. -/

/-- Number of lines in a window that the loop counts: non-blank after
trimming and at least two tab-separated cells. -/
def countRows (rows : List (ℕ × List Char)) : ℕ :=
  (rows.filter (fun il => ¬ trimL il.2 = [] ∧ 2 ≤ (splitCharL '\t' il.2).length)).length

/-- A line is skipped exactly when it is blank or has fewer than two
tab-separated cells. -/
theorem mkRowData_none_iff (cols : Cols) (i : ℕ) (line : List Char) :
    mkRowData cols i line = none ↔
      trimL line = [] ∨ (splitCharL '\t' line).length < 2 := by
  simp only [mkRowData]
  split_ifs with h1 h2
  · simp [h1]
  · simp [h1, h2]
  · simp [h1, h2]

/-- Both loop counters advance by exactly the number of counted lines. -/
theorem runRows_counts (sid : ℕ) (cols : Cols) (rows : List (ℕ × List Char)) :
    ∀ st : LoopState,
      (runRows sid cols rows st).rowsRead = st.rowsRead + countRows rows ∧
      (runRows sid cols rows st).attendanceUpserted =
        st.attendanceUpserted + countRows rows := by
  induction rows with
  | nil =>
    intro st
    simp [runRows, countRows]
  | cons r rest ih =>
    intro st
    rw [runRows, List.foldl_cons]
    have h := ih (processLine sid cols st r)
    rw [runRows] at h
    rcases hmr : mkRowData cols r.1 r.2 with _ | rd
    · have hcond : ¬(¬ trimL r.2 = [] ∧ 2 ≤ (splitCharL '\t' r.2).length) := by
        rcases (mkRowData_none_iff cols r.1 r.2).mp hmr with hb | hs
        · exact fun hc => hc.1 hb
        · exact fun hc => by omega
      have hcount : countRows (r :: rest) = countRows rest := by
        simp [countRows, List.filter_cons, hcond]
      have hr : (processLine sid cols st r).rowsRead = st.rowsRead := by
        simp [processLine, hmr]
      have hau : (processLine sid cols st r).attendanceUpserted = st.attendanceUpserted := by
        simp [processLine, hmr]
      rw [hcount]
      exact ⟨by rw [h.1, hr], by rw [h.2, hau]⟩
    · have hcond : ¬ trimL r.2 = [] ∧ 2 ≤ (splitCharL '\t' r.2).length := by
        by_contra hc
        have hnone := (mkRowData_none_iff cols r.1 r.2).mpr (by
          rcases not_and_or.mp hc with hc | hc
          · exact Or.inl (not_not.mp hc)
          · exact Or.inr (by omega))
        rw [hnone] at hmr
        cases hmr
      have hcount : countRows (r :: rest) = countRows rest + 1 := by
        simp [countRows, List.filter_cons, hcond]
      have hr : (processLine sid cols st r).rowsRead = st.rowsRead + 1 := by
        simp [processLine, hmr]
      have hau : (processLine sid cols st r).attendanceUpserted =
          st.attendanceUpserted + 1 := by
        simp [processLine, hmr]
      rw [hcount]
      constructor
      · rw [h.1, hr]
        omega
      · rw [h.2, hau]
        omega

/-- A successful import body reports equal read and upserted counts. -/
theorem importWithModule_ok_counts (req : ImportRequest) (s : Store) (intake : List Char)
    (year : JsNum) (mc : List Char) (p : OkPayload)
    (h : (importWithModule req s intake year mc).1 = .ok p) :
    p.rowsRead = p.attendanceUpserted := by
  simp only [importWithModule] at h
  split at h
  · cases h
  · split at h
    · cases h
    · split at h
      · cases h
      · revert h
        split
        · intro h
          cases h
          obtain ⟨h1, h2⟩ := runRows_counts _ _ _ ⟨_, 0, 0, 0⟩
          rw [h1, h2]
        · intro h
          cases h

/-- C10: every successful response reports `rowsRead` equal to
`attendanceUpserted`; both counters advance by exactly one for each
line of the Section 2 window that is non-empty and has at least two
tab-separated cells (even when rows share an email), skipped lines
advancing neither. -/
theorem claim10_counters :
    (∀ (req : ImportRequest) (s : Store) (p : OkPayload),
        (POST req s).1 = .ok p → p.rowsRead = p.attendanceUpserted) ∧
    (∀ (sid : ℕ) (cols : Cols) (rows : List (ℕ × List Char)) (st : LoopState),
        (runRows sid cols rows st).rowsRead = st.rowsRead + countRows rows ∧
        (runRows sid cols rows st).attendanceUpserted =
          st.attendanceUpserted + countRows rows) ∧
    (∀ (cols : Cols) (i : ℕ) (line : List Char),
        mkRowData cols i line = none ↔
          trimL line = [] ∨ (splitCharL '\t' line).length < 2) := by
  refine ⟨?_, fun sid cols rows st => runRows_counts sid cols rows st, mkRowData_none_iff⟩
  intro req s p h
  simp only [POST] at h
  split at h
  · cases h
  · split_ifs at h with h1 h2 h3 <;>
      first
        | cases h
        | exact importWithModule_ok_counts _ _ _ _ _ _ h
        | exact importWithModule_ok_counts _ _ _ _ _ _ h.symm
        | (revert h
           split
           · intro h
             cases h
           · intro h
             first
               | exact importWithModule_ok_counts _ _ _ _ _ _ h
               | exact importWithModule_ok_counts _ _ _ _ _ _ h.symm)

/-- The payload of the one-row import `c8Request` against the empty
store. -/
def c10Payload : OkPayload :=
  ⟨"MN5070NU".data, "Spring".data, ⟨2026, 1⟩, 0, 1, 1, 1, none⟩

/-- C10 witness: the counter theorem applied to the concrete one-row
import, whose payload reads one row and upserts one attendance. -/
theorem claim10_counters_witness : c10Payload.rowsRead = c10Payload.attendanceUpserted :=
  claim10_counters.1 c8Request emptyStore c10Payload (by decide)

/-! Claim C4: the session identity key. -/

/-- ISO rendering of an optional timestamp, the empty string when
absent. -/
def isoOptL (o : Option JSDate) : List Char :=
  match o with
  | some d => toISOStringL d
  | none => []

/-- Field bounds under which the fixed-width ISO rendering is faithful;
every timestamp the date parser produces satisfies them with room to
spare. -/
def JSDate.Bounded (d : JSDate) : Prop :=
  d.year < 10000 ∧ d.month < 100 ∧ d.day < 100 ∧ d.hour < 100 ∧ d.minute < 100 ∧
    d.second < 100 ∧ d.ms < 1000

/-- Digit characters determine their digits. -/
theorem digitChar_inj (a b : ℕ) (ha : a < 10) (hb : b < 10)
    (h : Nat.digitChar a = Nat.digitChar b) : a = b := by
  interval_cases a <;> interval_cases b <;> revert h <;> decide

/-- Lower-casing fixes digit characters. -/
theorem toLower_digitChar_mod (n : ℕ) :
    Char.toLower (Nat.digitChar (n % 10)) = Nat.digitChar (n % 10) := by
  have h : n % 10 < 10 := Nat.mod_lt _ (by norm_num)
  interval_cases hn : n % 10 <;> decide

/-- Digit characters are never the pipe separator. -/
theorem digitChar_ne_pipe (n : ℕ) (h : n < 10) : Nat.digitChar n ≠ '|' := by
  interval_cases n <;> decide

/-- Lower-casing distributes over append. -/
theorem lowerL_append (a b : List Char) : lowerL (a ++ b) = lowerL a ++ lowerL b := by
  simp [lowerL]

/-- Lower-casing peels one character. -/
theorem lowerL_cons (c : Char) (l : List Char) :
    lowerL (c :: l) = Char.toLower c :: lowerL l := by
  simp [lowerL]

/-- Lower-casing of the empty string. -/
theorem lowerL_nil : lowerL [] = [] := rfl

/-- Lower-casing fixes the pipe separator. -/
theorem toLower_pipe : Char.toLower '|' = '|' := by decide

/-- The lowercased ISO rendering, written with its explicit template. -/
def lowIsoL (d : JSDate) : List Char :=
  pad4L d.year ++ '-' :: pad2L d.month ++ '-' :: pad2L d.day ++ 't' :: pad2L d.hour ++
    ':' :: pad2L d.minute ++ ':' :: pad2L d.second ++ '.' :: pad3L d.ms ++ ['z']

/-- Lower-casing fixes the date separators and maps the two letters of
the ISO template to their lowercase forms. -/
theorem toLower_dash : Char.toLower '-' = '-' := by decide

/-- Lower-casing fixes the colon. -/
theorem toLower_colon : Char.toLower ':' = ':' := by decide

/-- Lower-casing fixes the dot. -/
theorem toLower_dot : Char.toLower '.' = '.' := by decide

/-- Lower-casing the ISO letter T. -/
theorem toLower_bigT : Char.toLower 'T' = 't' := by decide

/-- Lower-casing the ISO letter Z. -/
theorem toLower_bigZ : Char.toLower 'Z' = 'z' := by decide

/-- Lower-casing the ISO rendering yields the lowercase template. -/
theorem lowerL_toISO (d : JSDate) : lowerL (toISOStringL d) = lowIsoL d := by
  simp only [toISOStringL, lowIsoL, pad2L, pad3L, pad4L, lowerL_append, lowerL_cons,
    lowerL_nil, toLower_digitChar_mod, toLower_dash, toLower_colon, toLower_dot,
    toLower_bigT, toLower_bigZ]

/-- The lowercase ISO template always has 24 characters. -/
theorem lowIsoL_length (d : JSDate) : (lowIsoL d).length = 24 := by
  simp [lowIsoL, pad2L, pad3L, pad4L]

/-- A number below ten thousand is determined by its four decimal
digits. -/
theorem four_digits_inj (a b : ℕ) (ha : a < 10000) (hb : b < 10000)
    (h1 : a / 1000 % 10 = b / 1000 % 10) (h2 : a / 100 % 10 = b / 100 % 10)
    (h3 : a / 10 % 10 = b / 10 % 10) (h4 : a % 10 = b % 10) : a = b := by
  omega

/-- A number below a thousand is determined by its three decimal
digits. -/
theorem three_digits_inj (a b : ℕ) (ha : a < 1000) (hb : b < 1000)
    (h2 : a / 100 % 10 = b / 100 % 10) (h3 : a / 10 % 10 = b / 10 % 10)
    (h4 : a % 10 = b % 10) : a = b := by
  omega

/-- A number below a hundred is determined by its two decimal digits. -/
theorem two_digits_inj (a b : ℕ) (ha : a < 100) (hb : b < 100)
    (h3 : a / 10 % 10 = b / 10 % 10) (h4 : a % 10 = b % 10) : a = b := by
  omega

/-- The lowercase ISO template determines the timestamp within the
field bounds. -/
theorem lowIsoL_inj (d1 d2 : JSDate) (h1 : d1.Bounded) (h2 : d2.Bounded)
    (h : lowIsoL d1 = lowIsoL d2) : d1 = d2 := by
  obtain ⟨y1, mo1, da1, ho1, mi1, se1, ms1⟩ := d1
  obtain ⟨y2, mo2, da2, ho2, mi2, se2, ms2⟩ := d2
  obtain ⟨by1, bm1, bd1, bh1, bmi1, bs1, bms1⟩ := h1
  obtain ⟨by2, bm2, bd2, bh2, bmi2, bs2, bms2⟩ := h2
  simp only [lowIsoL, pad2L, pad3L, pad4L, List.cons_append, List.nil_append,
    List.cons.injEq, and_true, true_and] at h
  have di : ∀ a b : ℕ, Nat.digitChar (a % 10) = Nat.digitChar (b % 10) → a % 10 = b % 10 :=
    fun a b hh =>
      digitChar_inj _ _ (Nat.mod_lt _ (by norm_num)) (Nat.mod_lt _ (by norm_num)) hh
  obtain ⟨e1, e2, e3, e4, e5, e6, e7, e8, e9, e10, e11, e12, e13, e14, e15, e16, e17⟩ := h
  simp only [JSDate.mk.injEq]
  exact ⟨four_digits_inj _ _ by1 by2 (di _ _ e1) (di _ _ e2) (di _ _ e3) (di _ _ e4),
    two_digits_inj _ _ bm1 bm2 (di _ _ e5) (di _ _ e6),
    two_digits_inj _ _ bd1 bd2 (di _ _ e7) (di _ _ e8),
    two_digits_inj _ _ bh1 bh2 (di _ _ e9) (di _ _ e10),
    two_digits_inj _ _ bmi1 bmi2 (di _ _ e11) (di _ _ e12),
    two_digits_inj _ _ bs1 bs2 (di _ _ e13) (di _ _ e14),
    three_digits_inj _ _ bms1 bms2 (di _ _ e15) (di _ _ e16) (di _ _ e17)⟩

/-- The lowercase ISO template never starts with the pipe separator. -/
theorem lowIsoL_append_ne_pipe (d : JSDate) (x y : List Char) :
    lowIsoL d ++ x ≠ '|' :: y := by
  intro h
  simp only [lowIsoL, pad4L, List.cons_append] at h
  injection h with h1 _
  exact digitChar_ne_pipe _ (Nat.mod_lt _ (by norm_num)) h1

/-- Cancelling a common prefix followed by a common separator. -/
theorem append_cons_cancel (p : List Char) (c : Char) {x y : List Char}
    (h : p ++ c :: x = p ++ c :: y) : x = y := by
  simpa using List.append_cancel_left h

/-- Two session upserts under distinct fresh keys append two distinct
rows. -/
theorem upsertSession_two_new (s : Store) (k1 k2 : List Char) (d1 d2 : SessionData)
    (hne : ¬ k1 = k2)
    (h1 : s.sessions.find? (fun x => x.sessionKey = k1) = none)
    (h2 : s.sessions.find? (fun x => x.sessionKey = k2) = none) :
    (upsertSession (upsertSession s k1 d1).2 k2 d2).2.sessions.length =
      s.sessions.length + 2 := by
  simp only [upsertSession, h1]
  have hf2 : (s.sessions ++
      [(⟨s.nextId, k1, d1.moduleCode, d1.meetingName, d1.startTime, d1.endTime,
        d1.durationMin, d1.intake, d1.year⟩ : SessionRec)]).find?
        (fun x => x.sessionKey = k2) = none := by
    rw [List.find?_append, h2]
    simp [List.find?, hne]
  simp only [hf2]
  simp

/-- C4: the session identity key is the lowercased pipe-delimited
concatenation of intake, year, module code, ISO start, ISO end and
meeting title with the empty string for absent parts; two keys built
from the same intake, year and module code but different parsed start
times always differ; and upserting under two distinct fresh keys
produces two distinct Session rows. -/
theorem claim4_session_key :
    (∀ (intake : List Char) (y : JsNum) (mc : List Char) (st et : Option JSDate)
        (title : Option (List Char)),
        sessionKeyL intake y mc st et title =
          lowerL (List.intercalate ['|']
            [intake, jsNumToStrL y, mc, isoOptL st, isoOptL et, title.getD []])) ∧
    (∀ (intake : List Char) (y : JsNum) (mc : List Char) (st1 et1 st2 et2 : Option JSDate)
        (t1 t2 : Option (List Char)),
        (∀ d, st1 = some d → d.Bounded) → (∀ d, st2 = some d → d.Bounded) →
        st1 ≠ st2 →
        sessionKeyL intake y mc st1 et1 t1 ≠ sessionKeyL intake y mc st2 et2 t2) ∧
    (∀ (s : Store) (k1 k2 : List Char) (d1 d2 : SessionData), ¬ k1 = k2 →
        s.sessions.find? (fun x => x.sessionKey = k1) = none →
        s.sessions.find? (fun x => x.sessionKey = k2) = none →
        (upsertSession (upsertSession s k1 d1).2 k2 d2).2.sessions.length =
          s.sessions.length + 2) := by
  refine ⟨?_, ?_, upsertSession_two_new⟩
  · intro intake y mc st et title
    simp [sessionKeyL, isoOptL, List.intercalate, List.intersperse]
  · intro intake y mc st1 et1 st2 et2 t1 t2 hb1 hb2 hne heq
    apply hne
    rcases st1 with _ | a <;> rcases st2 with _ | b
    · rfl
    · exfalso
      simp only [sessionKeyL, lowerL_append, lowerL_cons, lowerL_nil, lowerL_toISO,
        toLower_pipe, List.append_assoc, List.cons_append, List.nil_append] at heq
      have hX := append_cons_cancel _ _
        (append_cons_cancel _ _ (append_cons_cancel _ _ heq))
      exact lowIsoL_append_ne_pipe b _ _ hX.symm
    · exfalso
      simp only [sessionKeyL, lowerL_append, lowerL_cons, lowerL_nil, lowerL_toISO,
        toLower_pipe, List.append_assoc, List.cons_append, List.nil_append] at heq
      have hX := append_cons_cancel _ _
        (append_cons_cancel _ _ (append_cons_cancel _ _ heq))
      exact lowIsoL_append_ne_pipe a _ _ hX
    · simp only [sessionKeyL, lowerL_append, lowerL_cons, lowerL_nil, lowerL_toISO,
        toLower_pipe, List.append_assoc, List.cons_append, List.nil_append] at heq
      have hX := append_cons_cancel _ _
        (append_cons_cancel _ _ (append_cons_cancel _ _ heq))
      obtain ⟨hiso, -⟩ := List.append_inj hX (by rw [lowIsoL_length, lowIsoL_length])
      rw [lowIsoL_inj a b (hb1 a rfl) (hb2 b rfl) hiso]

/-- C4 witness: the key theorem applied at two concrete uploads of the
same cohort and module whose parsed start times are nine and fourteen
o'clock of the same day. -/
theorem claim4_session_key_witness :
    sessionKeyL "Spring".data ⟨2026, 1⟩ "MN5070NU".data
        (some ⟨2026, 2, 10, 9, 0, 0, 0⟩) none (some "Weekly Standup".data) ≠
      sessionKeyL "Spring".data ⟨2026, 1⟩ "MN5070NU".data
        (some ⟨2026, 2, 10, 14, 0, 0, 0⟩) none (some "Weekly Standup".data) :=
  claim4_session_key.2.1 "Spring".data ⟨2026, 1⟩ "MN5070NU".data
    (some ⟨2026, 2, 10, 9, 0, 0, 0⟩) none (some ⟨2026, 2, 10, 14, 0, 0, 0⟩) none
    (some "Weekly Standup".data) (some "Weekly Standup".data)
    (fun d hd => by cases hd; exact ⟨by norm_num, by norm_num, by norm_num, by norm_num,
      by norm_num, by norm_num, by norm_num⟩)
    (fun d hd => by cases hd; exact ⟨by norm_num, by norm_num, by norm_num, by norm_num,
      by norm_num, by norm_num, by norm_num⟩)
    (by decide)

/-! Claim C2: idempotence of re-importing the identical file.  The
loop is analysed as a fold of `applyRow` over the parsed row data; the
second pass is shown to replay exactly the same keyed last-write-wins
updates, so the store converges. -/

/-- The attendance payload the loop body writes for a row. -/
def attData (rd : RowData) : AttendanceData :=
  ⟨rd.emailRaw, rd.firstJoin, rd.lastLeave, rd.minutes, rd.role, rd.isEligible⟩

/-- Generic commutation of `find?` with a predicate-preserving map. -/
theorem find?_map_pres {α : Type} (l : List α) (f : α → α) (p : α → Bool)
    (hp : ∀ x, p (f x) = p x) : (l.map f).find? p = (l.find? p).map f := by
  induction l with
  | nil => rfl
  | cons x xs ih =>
    simp only [List.map_cons]
    by_cases hpx : p x = true
    · rw [List.find?_cons_of_pos _ (by rw [hp]; exact hpx), List.find?_cons_of_pos _ hpx]
      rfl
    · rw [List.find?_cons_of_neg _ (by rw [hp]; simpa using hpx),
        List.find?_cons_of_neg _ (by simpa using hpx)]
      exact ih

/-- The attendance upsert leaves students untouched. -/
theorem upsertAttendance_students (s : Store) (sid stuId : ℕ) (d : AttendanceData) :
    (upsertAttendance s sid stuId d).students = s.students := by
  rw [upsertAttendance]
  split <;> rfl

/-- The student upsert leaves modules untouched. -/
theorem upsertStudent_modules (s : Store) (k : List Char) (n : Option (List Char)) :
    (upsertStudent s k n).2.modules = s.modules := by
  rw [upsertStudent]
  split <;> rfl

/-- The student upsert leaves sessions untouched. -/
theorem upsertStudent_sessions (s : Store) (k : List Char) (n : Option (List Char)) :
    (upsertStudent s k n).2.sessions = s.sessions := by
  rw [upsertStudent]
  split <;> rfl

/-- The attendance upsert leaves modules untouched. -/
theorem upsertAttendance_modules (s : Store) (sid stuId : ℕ) (d : AttendanceData) :
    (upsertAttendance s sid stuId d).modules = s.modules := by
  rw [upsertAttendance]
  split <;> rfl

/-- The attendance upsert leaves sessions untouched. -/
theorem upsertAttendance_sessions (s : Store) (sid stuId : ℕ) (d : AttendanceData) :
    (upsertAttendance s sid stuId d).sessions = s.sessions := by
  rw [upsertAttendance]
  split <;> rfl

/-- The loop body leaves modules untouched. -/
theorem applyRow_modules (sid : ℕ) (s : Store) (rd : RowData) :
    (applyRow sid s rd).modules = s.modules := by
  simp only [applyRow]
  rw [upsertAttendance_modules, upsertStudent_modules]

/-- The loop body leaves sessions untouched. -/
theorem applyRow_sessions (sid : ℕ) (s : Store) (rd : RowData) :
    (applyRow sid s rd).sessions = s.sessions := by
  simp only [applyRow]
  rw [upsertAttendance_sessions, upsertStudent_sessions]

/-- The fold of loop bodies leaves modules untouched. -/
theorem foldRows_modules (sid : ℕ) (acts : List RowData) :
    ∀ s : Store, (acts.foldl (applyRow sid) s).modules = s.modules := by
  induction acts with
  | nil => exact fun s => rfl
  | cons rd rest ih =>
    intro s
    rw [List.foldl_cons, ih, applyRow_modules]

/-- The fold of loop bodies leaves sessions untouched. -/
theorem foldRows_sessions (sid : ℕ) (acts : List RowData) :
    ∀ s : Store, (acts.foldl (applyRow sid) s).sessions = s.sessions := by
  induction acts with
  | nil => exact fun s => rfl
  | cons rd rest ih =>
    intro s
    rw [List.foldl_cons, ih, applyRow_sessions]

/-- The store component of the participant loop is the fold of the loop
body over the parsed rows. -/
theorem runRows_store (sid : ℕ) (cols : Cols) (rows : List (ℕ × List Char)) :
    ∀ st : LoopState, (runRows sid cols rows st).store =
      List.foldl (applyRow sid) st.store
        (rows.filterMap (fun il => mkRowData cols il.1 il.2)) := by
  induction rows with
  | nil => exact fun st => rfl
  | cons r rest ih =>
    intro st
    rw [runRows, List.foldl_cons, ← runRows]
    rcases hmr : mkRowData cols r.1 r.2 with _ | rd
    · have hf : List.filterMap (fun il => mkRowData cols il.1 il.2) (r :: rest)
          = List.filterMap (fun il => mkRowData cols il.1 il.2) rest := by
        simp [List.filterMap_cons, hmr]
      have hskip : processLine sid cols st r = st := by
        simp [processLine, hmr]
      rw [hskip, ih, hf]
    · have hf : List.filterMap (fun il => mkRowData cols il.1 il.2) (r :: rest)
          = rd :: List.filterMap (fun il => mkRowData cols il.1 il.2) rest := by
        simp [List.filterMap_cons, hmr]
      have hstep : (processLine sid cols st r).store = applyRow sid st.store rd := by
        simp [processLine, hmr]
      rw [ih, hstep, hf, List.foldl_cons]

/-- Well-formedness: every stored student id is below the id counter.
This holds of every store the route ever produces and rules out id
clashes between existing students and freshly created rows. -/
def WFS (s : Store) : Prop := ∀ x ∈ s.students, x.id < s.nextId

/-- The student upsert preserves well-formedness. -/
theorem upsertStudent_WFS (s : Store) (k : List Char) (n : Option (List Char))
    (h : WFS s) : WFS (upsertStudent s k n).2 := by
  rcases hf : s.students.find? (fun x => x.email = k) with _ | old
  · intro x hx
    simp only [upsertStudent, hf] at hx ⊢
    rcases List.mem_append.mp hx with hx | hx
    · exact Nat.lt_succ_of_lt (h x hx)
    · simp only [List.mem_singleton] at hx
      subst hx
      exact Nat.lt_succ_self _
  · intro x hx
    simp only [upsertStudent, hf] at hx ⊢
    rcases List.mem_map.mp hx with ⟨y, hy, rfl⟩
    by_cases he : y.email = k
    · rw [if_pos he]
      exact h old (List.mem_of_find?_eq_some hf)
    · rw [if_neg he]
      exact h y hy

/-- The attendance upsert preserves well-formedness. -/
theorem upsertAttendance_WFS (s : Store) (sid stuId : ℕ) (d : AttendanceData)
    (h : WFS s) : WFS (upsertAttendance s sid stuId d) := by
  rcases hf : s.attendances.find? (fun x => x.sessionId = sid ∧ x.studentId = stuId)
      with _ | old
  · intro x hx
    simp only [upsertAttendance, hf] at hx ⊢
    exact Nat.lt_succ_of_lt (h x hx)
  · intro x hx
    simp only [upsertAttendance, hf] at hx ⊢
    exact h x hx

/-- The loop body preserves well-formedness. -/
theorem applyRow_WFS (sid : ℕ) (s : Store) (rd : RowData) (h : WFS s) :
    WFS (applyRow sid s rd) := by
  simp only [applyRow]
  exact upsertAttendance_WFS _ _ _ _ (upsertStudent_WFS _ _ _ h)

/-- The fold of loop bodies preserves well-formedness. -/
theorem foldRows_WFS (sid : ℕ) (acts : List RowData) :
    ∀ s : Store, WFS s → WFS (acts.foldl (applyRow sid) s) := by
  induction acts with
  | nil => exact fun s h => h
  | cons rd rest ih =>
    intro s h
    rw [List.foldl_cons]
    exact ih _ (applyRow_WFS _ _ _ h)

/-- The student upsert never decreases the id counter. -/
theorem upsertStudent_nextId (s : Store) (k : List Char) (n : Option (List Char)) :
    s.nextId ≤ (upsertStudent s k n).2.nextId := by
  rcases hf : s.students.find? (fun x => x.email = k) with _ | old
  · simp only [upsertStudent, hf]
    exact Nat.le_succ _
  · simp only [upsertStudent, hf]
    exact Nat.le_refl _

/-- The attendance upsert never decreases the id counter. -/
theorem upsertAttendance_nextId (s : Store) (sid stuId : ℕ) (d : AttendanceData) :
    s.nextId ≤ (upsertAttendance s sid stuId d).nextId := by
  rcases hf : s.attendances.find? (fun x => x.sessionId = sid ∧ x.studentId = stuId)
      with _ | old
  · simp only [upsertAttendance, hf]
    exact Nat.le_succ _
  · simp only [upsertAttendance, hf]
    exact Nat.le_refl _

/-- The loop body never decreases the id counter. -/
theorem applyRow_nextId (sid : ℕ) (s : Store) (rd : RowData) :
    s.nextId ≤ (applyRow sid s rd).nextId := by
  simp only [applyRow]
  exact le_trans (upsertStudent_nextId _ _ _) (upsertAttendance_nextId _ _ _ _)

/-- The fold of loop bodies never decreases the id counter. -/
theorem foldRows_nextId (sid : ℕ) (acts : List RowData) :
    ∀ s : Store, s.nextId ≤ (acts.foldl (applyRow sid) s).nextId := by
  induction acts with
  | nil => exact fun s => Nat.le_refl _
  | cons rd rest ih =>
    intro s
    rw [List.foldl_cons]
    exact le_trans (applyRow_nextId _ _ _) (ih _)

/-- A student lookup that succeeds keeps succeeding after a loop body,
with the same id and email (only the name can change). -/
theorem find_student_applyRow (sid : ℕ) (s : Store) (rd : RowData) (q : List Char)
    (x : Student) (hx : s.students.find? (fun y => y.email = q) = some x) :
    ∃ x', (applyRow sid s rd).students.find? (fun y => y.email = q) = some x' ∧
      x'.id = x.id ∧ x'.email = x.email := by
  have hst : (applyRow sid s rd).students = (upsertStudent s rd.key rd.nameOpt).2.students := by
    simp only [applyRow]
    rw [upsertAttendance_students]
  rw [hst]
  rcases hf : s.students.find? (fun y => y.email = rd.key) with _ | old
  · refine ⟨x, ?_, rfl, rfl⟩
    simp only [upsertStudent, hf]
    simp [List.find?_append, hx]
  · have holdk0 := List.find?_some hf
    have holdk : old.email = rd.key := of_decide_eq_true holdk0
    simp only [upsertStudent, hf]
    have hemail : ∀ y : Student,
        ((fun y => if y.email = rd.key then
          { old with name := match rd.nameOpt with | some n => some n | none => old.name }
          else y) y).email = y.email := by
      intro y
      show (if y.email = rd.key then
          { old with name := match rd.nameOpt with | some n => some n | none => old.name }
          else y).email = y.email
      by_cases he : y.email = rd.key
      · rw [if_pos he]
        show old.email = y.email
        rw [holdk, he]
      · rw [if_neg he]
    rw [find?_map_pres _ _ _ (fun y => by rw [hemail y]), hx]
    by_cases he : x.email = rd.key
    · have hq0 := List.find?_some hx
      have hq : x.email = q := of_decide_eq_true hq0
      have hqk : q = rd.key := by rw [← hq, he]
      subst hqk
      rw [hf] at hx
      injection hx with hx
      subst hx
      exact ⟨_, rfl, by simp [he], by simp [he, holdk]⟩
    · exact ⟨_, rfl, by simp [he], by simp [he]⟩

/-- Iterated version of the student lookup stability. -/
theorem find_student_fold (sid : ℕ) (acts : List RowData) :
    ∀ (s : Store) (q : List Char) (x : Student),
      s.students.find? (fun y => y.email = q) = some x →
      ∃ x', (acts.foldl (applyRow sid) s).students.find? (fun y => y.email = q) = some x' ∧
        x'.id = x.id ∧ x'.email = x.email := by
  induction acts with
  | nil => exact fun s q x hx => ⟨x, hx, rfl, rfl⟩
  | cons rd rest ih =>
    intro s q x hx
    rcases find_student_applyRow sid s rd q x hx with ⟨x1, hx1, hid1, hem1⟩
    rcases ih (applyRow sid s rd) q x1 hx1 with ⟨x2, hx2, hid2, hem2⟩
    exact ⟨x2, by rw [List.foldl_cons]; exact hx2, by rw [hid2, hid1], by rw [hem2, hem1]⟩

/-- An attendance lookup that succeeds keeps succeeding after a loop
body, with the same id and key (only the payload can change). -/
theorem find_att_applyRow (sid : ℕ) (s : Store) (rd : RowData) (sid' j : ℕ)
    (a : AttendanceRec)
    (ha : s.attendances.find? (fun y => y.sessionId = sid' ∧ y.studentId = j) = some a) :
    ∃ a', (applyRow sid s rd).attendances.find?
        (fun y => y.sessionId = sid' ∧ y.studentId = j) = some a' ∧
      a'.id = a.id ∧ a'.sessionId = a.sessionId ∧ a'.studentId = a.studentId := by
  have hat : (applyRow sid s rd).attendances =
      (upsertAttendance (upsertStudent s rd.key rd.nameOpt).2 sid
        (upsertStudent s rd.key rd.nameOpt).1.id (attData rd)).attendances := by
    simp only [applyRow]
    rfl
  have hsame : (upsertStudent s rd.key rd.nameOpt).2.attendances = s.attendances :=
    upsertStudent_attendances s rd.key rd.nameOpt
  rw [hat]
  set s1 := (upsertStudent s rd.key rd.nameOpt).2 with hs1
  set tid := (upsertStudent s rd.key rd.nameOpt).1.id with htid
  rcases hf : s1.attendances.find? (fun y => y.sessionId = sid ∧ y.studentId = tid)
      with _ | old
  · refine ⟨a, ?_, rfl, rfl, rfl⟩
    simp only [upsertAttendance, hf]
    rw [hsame]
    rw [List.find?_append, ha]
    rfl
  · have holdk0 := List.find?_some hf
    have holdk : old.sessionId = sid ∧ old.studentId = tid := of_decide_eq_true holdk0
    simp only [upsertAttendance, hf]
    have hkeep : ∀ y : AttendanceRec,
        (if y.sessionId = sid ∧ y.studentId = tid then old.withData (attData rd)
          else y).sessionId = y.sessionId ∧
        (if y.sessionId = sid ∧ y.studentId = tid then old.withData (attData rd)
          else y).studentId = y.studentId := by
      intro y
      by_cases he : y.sessionId = sid ∧ y.studentId = tid
      · rw [if_pos he]
        constructor
        · show old.sessionId = y.sessionId
          rw [holdk.1, he.1]
        · show old.studentId = y.studentId
          rw [holdk.2, he.2]
      · rw [if_neg he]
        exact ⟨rfl, rfl⟩
    have hp : ∀ y : AttendanceRec,
        decide ((if y.sessionId = sid ∧ y.studentId = tid then old.withData (attData rd)
            else y).sessionId = sid' ∧
          (if y.sessionId = sid ∧ y.studentId = tid then old.withData (attData rd)
            else y).studentId = j)
        = decide (y.sessionId = sid' ∧ y.studentId = j) := by
      intro y
      rw [decide_eq_decide, (hkeep y).1, (hkeep y).2]
    rw [hsame] at *
    rw [find?_map_pres s.attendances
      (fun y => if y.sessionId = sid ∧ y.studentId = tid then old.withData (attData rd) else y)
      (fun y => decide (y.sessionId = sid' ∧ y.studentId = j))
      (fun y => hp y), ha]
    by_cases he : a.sessionId = sid ∧ a.studentId = tid
    · have hq0 := List.find?_some ha
      have hq : a.sessionId = sid' ∧ a.studentId = j := of_decide_eq_true hq0
      have hqk : sid' = sid ∧ j = tid := ⟨by rw [← hq.1, he.1], by rw [← hq.2, he.2]⟩
      rcases hqk with ⟨h1, h2⟩
      subst h1
      subst h2
      rw [hf] at ha
      injection ha with ha
      subst ha
      refine ⟨_, rfl, ?_, ?_, ?_⟩ <;> simp [he, AttendanceRec.withData]
    · exact ⟨_, rfl, by simp [he], by simp [he], by simp [he]⟩

/-- Iterated version of the attendance lookup stability. -/
theorem find_att_fold (sid : ℕ) (acts : List RowData) :
    ∀ (s : Store) (sid' j : ℕ) (a : AttendanceRec),
      s.attendances.find? (fun y => y.sessionId = sid' ∧ y.studentId = j) = some a →
      ∃ a', (acts.foldl (applyRow sid) s).attendances.find?
          (fun y => y.sessionId = sid' ∧ y.studentId = j) = some a' ∧
        a'.id = a.id ∧ a'.sessionId = a.sessionId ∧ a'.studentId = a.studentId := by
  induction acts with
  | nil => exact fun s sid' j a ha => ⟨a, ha, rfl, rfl, rfl⟩
  | cons rd rest ih =>
    intro s sid' j a ha
    rcases find_att_applyRow sid s rd sid' j a ha with ⟨a1, ha1, h1, h2, h3⟩
    rcases ih (applyRow sid s rd) sid' j a1 ha1 with ⟨a2, ha2, g1, g2, g3⟩
    exact ⟨a2, by rw [List.foldl_cons]; exact ha2,
      by rw [g1, h1], by rw [g2, h2], by rw [g3, h3]⟩

/-- Rewrite every student whose email is `k` to `u` — the list shape
the student upsert's update branch produces. -/
def replStu (k : List Char) (u : Student) (l : List Student) : List Student :=
  l.map (fun x => if x.email = k then u else x)

/-- Rewrite every attendance with key `(sid, i)` to `u` — the list
shape the attendance upsert's update branch produces. -/
def replAtt (sid i : ℕ) (u : AttendanceRec) (l : List AttendanceRec) :
    List AttendanceRec :=
  l.map (fun a => if a.sessionId = sid ∧ a.studentId = i then u else a)

/-- Overlay of the student half of a loop body on a store. -/
def stuOver (k : List Char) (u : Student) (s : Store) : Store :=
  { s with students := replStu k u s.students }

/-- Overlay of the attendance half of a loop body on a store. -/
def attOver (sid i : ℕ) (u : AttendanceRec) (s : Store) : Store :=
  { s with attendances := replAtt sid i u s.attendances }

/-- Rewriting the `k`-students twice keeps only the second write. -/
theorem replStu_replStu (k : List Char) (u v : Student) (l : List Student)
    (hu : u.email = k) : replStu k v (replStu k u l) = replStu k v l := by
  simp only [replStu, List.map_map]
  apply List.map_congr_left
  intro x _
  simp only [Function.comp]
  by_cases he : x.email = k
  · rw [if_pos he, if_pos hu, if_pos he]
  · rw [if_neg he, if_neg he]

/-- Rewriting the `(sid, i)`-attendances twice keeps only the second
write. -/
theorem replAtt_replAtt (sid i : ℕ) (u v : AttendanceRec) (l : List AttendanceRec)
    (hu1 : u.sessionId = sid) (hu2 : u.studentId = i) :
    replAtt sid i v (replAtt sid i u l) = replAtt sid i v l := by
  simp only [replAtt, List.map_map]
  apply List.map_congr_left
  intro a _
  simp only [Function.comp]
  by_cases he : a.sessionId = sid ∧ a.studentId = i
  · rw [if_pos he, if_pos ⟨hu1, hu2⟩, if_pos he]
  · rw [if_neg he, if_neg he]

/-- After the rewrite, the first `k`-student is the written record. -/
theorem find_replStu (k : List Char) (u : Student) (l : List Student)
    (hu : u.email = k) (x : Student) (hx : l.find? (fun y => y.email = k) = some x) :
    (replStu k u l).find? (fun y => y.email = k) = some u := by
  have hp : ∀ y : Student,
      decide ((if y.email = k then u else y).email = k) = decide (y.email = k) := by
    intro y
    by_cases he : y.email = k
    · rw [if_pos he]
      simp [hu, he]
    · rw [if_neg he]
  rw [replStu, find?_map_pres l (fun x => if x.email = k then u else x)
    (fun y => decide (y.email = k)) hp, hx]
  have hxk0 := List.find?_some hx
  have hxk : x.email = k := of_decide_eq_true hxk0
  simp [hxk]

/-- The rewrite leaves lookups for other emails unchanged. -/
theorem find_replStu_ne (k q : List Char) (u : Student) (l : List Student)
    (hu : u.email = k) (hq : q ≠ k) :
    (replStu k u l).find? (fun y => y.email = q) = l.find? (fun y => y.email = q) := by
  have hp : ∀ y : Student,
      decide ((if y.email = k then u else y).email = q) = decide (y.email = q) := by
    intro y
    by_cases he : y.email = k
    · rw [if_pos he]
      have h1 : decide (u.email = q) = false := by
        simp only [decide_eq_false_iff_not]
        intro h
        exact hq (hu.symm.trans h).symm
      have h2 : decide (y.email = q) = false := by
        simp only [decide_eq_false_iff_not]
        intro h
        exact hq (he.symm.trans h).symm
      rw [h1, h2]
    · rw [if_neg he]
  rcases hl : l.find? (fun y => y.email = q) with _ | y
  · rw [replStu, find?_map_pres l _ _ hp, hl]
    rfl
  · rw [replStu, find?_map_pres l _ _ hp, hl]
    have hyq0 := List.find?_some hl
    have hyq : y.email = q := of_decide_eq_true hyq0
    have hyk : ¬ y.email = k := fun h => hq (by rw [← hyq, h])
    simp [hyk]

/-- After the rewrite, the first `(sid, i)`-attendance is the written
record. -/
theorem find_replAtt (sid i : ℕ) (u : AttendanceRec) (l : List AttendanceRec)
    (hu1 : u.sessionId = sid) (hu2 : u.studentId = i) (a : AttendanceRec)
    (ha : l.find? (fun y => y.sessionId = sid ∧ y.studentId = i) = some a) :
    (replAtt sid i u l).find? (fun y => y.sessionId = sid ∧ y.studentId = i) = some u := by
  have hp : ∀ y : AttendanceRec,
      decide ((if y.sessionId = sid ∧ y.studentId = i then u else y).sessionId = sid ∧
        (if y.sessionId = sid ∧ y.studentId = i then u else y).studentId = i)
      = decide (y.sessionId = sid ∧ y.studentId = i) := by
    intro y
    by_cases he : y.sessionId = sid ∧ y.studentId = i
    · simp only [if_pos he]
      simp [hu1, hu2, he.1, he.2]
    · simp only [if_neg he]
  rw [replAtt, find?_map_pres l
    (fun a => if a.sessionId = sid ∧ a.studentId = i then u else a)
    (fun y => decide (y.sessionId = sid ∧ y.studentId = i)) hp, ha]
  have hak0 := List.find?_some ha
  have hak : a.sessionId = sid ∧ a.studentId = i := of_decide_eq_true hak0
  simp [hak.1, hak.2]

/-- The rewrite leaves lookups for other attendance keys unchanged. -/
theorem find_replAtt_ne (sid i sid' j : ℕ) (u : AttendanceRec) (l : List AttendanceRec)
    (hu1 : u.sessionId = sid) (hu2 : u.studentId = i)
    (hne : ¬ (sid' = sid ∧ j = i)) :
    (replAtt sid i u l).find? (fun y => y.sessionId = sid' ∧ y.studentId = j)
      = l.find? (fun y => y.sessionId = sid' ∧ y.studentId = j) := by
  have hp : ∀ y : AttendanceRec,
      decide ((if y.sessionId = sid ∧ y.studentId = i then u else y).sessionId = sid' ∧
        (if y.sessionId = sid ∧ y.studentId = i then u else y).studentId = j)
      = decide (y.sessionId = sid' ∧ y.studentId = j) := by
    intro y
    by_cases he : y.sessionId = sid ∧ y.studentId = i
    · simp only [if_pos he]
      have h1 : ¬ (u.sessionId = sid' ∧ u.studentId = j) := by
        rintro ⟨g1, g2⟩
        exact hne ⟨by rw [← g1, hu1], by rw [← g2, hu2]⟩
      have h2 : ¬ (y.sessionId = sid' ∧ y.studentId = j) := by
        rintro ⟨g1, g2⟩
        exact hne ⟨by rw [← g1, he.1], by rw [← g2, he.2]⟩
      simp [h1, h2]
    · simp only [if_neg he]
  rcases hl : l.find? (fun y => y.sessionId = sid' ∧ y.studentId = j) with _ | y
  · rw [replAtt, find?_map_pres l _ _ hp, hl]
    rfl
  · rw [replAtt, find?_map_pres l _ _ hp, hl]
    have hy0 := List.find?_some hl
    have hy : y.sessionId = sid' ∧ y.studentId = j := of_decide_eq_true hy0
    have hyk : ¬ (y.sessionId = sid ∧ y.studentId = i) := by
      rintro ⟨g1, g2⟩
      exact hne ⟨by rw [← hy.1, g1], by rw [← hy.2, g2]⟩
    simp [hyk]

/-- The student record the update branch of the student upsert writes. -/
def updStu (stu : Student) (n : Option (List Char)) : Student :=
  { stu with name := match n with | some m => some m | none => stu.name }

/-- On a store that already contains the row's student key and the
matching attendance key, a loop body is exactly the pair of keyed
rewrites. -/
theorem applyRow_shape (sid : ℕ) (s : Store) (rd : RowData) (stu : Student)
    (a0 : AttendanceRec)
    (hstu : s.students.find? (fun x => x.email = rd.key) = some stu)
    (hatt : s.attendances.find?
      (fun y => y.sessionId = sid ∧ y.studentId = stu.id) = some a0) :
    applyRow sid s rd =
      stuOver rd.key (updStu stu rd.nameOpt)
        (attOver sid stu.id (a0.withData (attData rd)) s) := by
  have h1 : upsertStudent s rd.key rd.nameOpt =
      (updStu stu rd.nameOpt,
        { s with students := replStu rd.key (updStu stu rd.nameOpt) s.students }) := by
    simp only [upsertStudent, hstu, replStu, updStu]
  have hid : (updStu stu rd.nameOpt).id = stu.id := rfl
  simp only [applyRow, h1]
  simp only [upsertAttendance, hid, hatt]
  simp only [stuOver, attOver, replStu, replAtt, attData, updStu]

/-- The attendance upsert ignores and preserves the students field. -/
theorem upsertAttendance_students_set (s : Store) (l : List Student) (sid j : ℕ)
    (d : AttendanceData) :
    upsertAttendance { s with students := l } sid j d
      = { upsertAttendance s sid j d with students := l } := by
  rcases hf : s.attendances.find? (fun x => x.sessionId = sid ∧ x.studentId = j)
      with _ | old <;>
    simp only [upsertAttendance, hf]

/-- The student upsert ignores and preserves the attendances field. -/
theorem upsertStudent_atts_set (s : Store) (L : List AttendanceRec) (k : List Char)
    (n : Option (List Char)) :
    upsertStudent { s with attendances := L } k n
      = ((upsertStudent s k n).1, { (upsertStudent s k n).2 with attendances := L }) := by
  rcases hf : s.students.find? (fun x => x.email = k) with _ | old <;>
    simp only [upsertStudent, hf]

/-- Attendance records that agree on id and key agree after a full
payload overwrite. -/
theorem withData_congr_att (x y : AttendanceRec) (d : AttendanceData)
    (h1 : x.id = y.id) (h2 : x.sessionId = y.sessionId) (h3 : x.studentId = y.studentId) :
    x.withData d = y.withData d := by
  simp [AttendanceRec.withData, h1, h2, h3]

/-- The `k`-rewrite commutes with an update targeting a different email. -/
theorem replStu_comm (k q : List Char) (u w : Student) (l : List Student)
    (hu : u.email = k) (hw : w.email = q) (hqk : q ≠ k) :
    (replStu k u l).map (fun x => if x.email = q then w else x)
      = replStu k u (l.map (fun x => if x.email = q then w else x)) := by
  simp only [replStu, List.map_map]
  apply List.map_congr_left
  intro x _
  simp only [Function.comp]
  by_cases h1 : x.email = k
  · have h2 : ¬ x.email = q := fun h => hqk (by rw [← h, h1])
    have h3 : ¬ u.email = q := fun h => hqk (hu.symm.trans h).symm
    have h4 : k ≠ q := fun h => hqk h.symm
    simp [h1, h2, h3, h4]
  · by_cases h2 : x.email = q
    · have h3 : ¬ w.email = k := fun h => hqk (hw.symm.trans h)
      simp [h1, h2, h3, hqk]
    · simp [h1, h2]

/-- The `(sid, i)`-rewrite commutes with an update targeting a
different attendance key. -/
theorem replAtt_comm (sid i sid' j : ℕ) (u w : AttendanceRec) (l : List AttendanceRec)
    (hu1 : u.sessionId = sid) (hu2 : u.studentId = i)
    (hw1 : w.sessionId = sid') (hw2 : w.studentId = j)
    (hne : ¬ (sid' = sid ∧ j = i)) :
    (replAtt sid i u l).map (fun a => if a.sessionId = sid' ∧ a.studentId = j then w else a)
      = replAtt sid i u
        (l.map (fun a => if a.sessionId = sid' ∧ a.studentId = j then w else a)) := by
  simp only [replAtt, List.map_map]
  apply List.map_congr_left
  intro a _
  simp only [Function.comp]
  by_cases h1 : a.sessionId = sid ∧ a.studentId = i
  · have h2 : ¬ (a.sessionId = sid' ∧ a.studentId = j) := by
      rintro ⟨g1, g2⟩
      exact hne ⟨by rw [← g1, h1.1], by rw [← g2, h1.2]⟩
    have h3 : ¬ (u.sessionId = sid' ∧ u.studentId = j) := by
      rintro ⟨g1, g2⟩
      exact hne ⟨by rw [← g1, hu1], by rw [← g2, hu2]⟩
    rw [if_pos h1, if_neg h3, if_neg h2, if_pos h1]
  · by_cases h2 : a.sessionId = sid' ∧ a.studentId = j
    · have h3 : ¬ (w.sessionId = sid ∧ w.studentId = i) := by
        rintro ⟨g1, g2⟩
        exact hne ⟨by rw [← hw1, g1], by rw [← hw2, g2]⟩
      rw [if_neg h1, if_pos h2, if_neg h3]
    · rw [if_neg h1, if_neg h2, if_neg h1]

/-- The `k`-rewrite passes over an appended student with another email. -/
theorem replStu_append_skip (k : List Char) (u c : Student) (l : List Student)
    (hc : ¬ c.email = k) :
    replStu k u (l ++ [c]) = replStu k u l ++ [c] := by
  simp [replStu, List.map_append, hc]

/-- The `(sid, i)`-rewrite passes over an appended attendance with
another key. -/
theorem replAtt_append_skip (sid i : ℕ) (u c : AttendanceRec) (l : List AttendanceRec)
    (hc : ¬ (c.sessionId = sid ∧ c.studentId = i)) :
    replAtt sid i u (l ++ [c]) = replAtt sid i u l ++ [c] := by
  simp only [replAtt, List.map_append, List.map_cons, List.map_nil, if_neg hc]

/-- List-level form of the student upsert: returned row, new student
list, new id counter. -/
def stuUpsertL (sts : List Student) (nid : ℕ) (k : List Char) (n : Option (List Char)) :
    Student × List Student × ℕ :=
  match sts.find? (fun x => x.email = k) with
  | some old => (updStu old n, replStu k (updStu old n) sts, nid)
  | none => (⟨nid, k, n⟩, sts ++ [⟨nid, k, n⟩], nid + 1)

/-- List-level form of the attendance upsert: new attendance list and
new id counter. -/
def attUpsertL (atts : List AttendanceRec) (nid sid j : ℕ) (d : AttendanceData) :
    List AttendanceRec × ℕ :=
  match atts.find? (fun x => x.sessionId = sid ∧ x.studentId = j) with
  | some old => (replAtt sid j (old.withData d) atts, nid)
  | none => (atts ++ [⟨nid, sid, j, d.emailRaw, d.firstJoin, d.lastLeave, d.minutes,
      d.role, d.isEligible⟩], nid + 1)

/-- The loop body in terms of the list-level upserts: everything it
does to a store is captured by three replaced fields. -/
theorem applyRow_eq (sid : ℕ) (s : Store) (rd : RowData) :
    applyRow sid s rd =
      { s with
        students := (stuUpsertL s.students s.nextId rd.key rd.nameOpt).2.1
        attendances := (attUpsertL s.attendances
          (stuUpsertL s.students s.nextId rd.key rd.nameOpt).2.2 sid
          (stuUpsertL s.students s.nextId rd.key rd.nameOpt).1.id (attData rd)).1
        nextId := (attUpsertL s.attendances
          (stuUpsertL s.students s.nextId rd.key rd.nameOpt).2.2 sid
          (stuUpsertL s.students s.nextId rd.key rd.nameOpt).1.id (attData rd)).2 } := by
  rcases hf1 : s.students.find? (fun x => x.email = rd.key) with _ | old1
  · rcases hf2 : s.attendances.find?
        (fun x => x.sessionId = sid ∧ x.studentId = s.nextId) with _ | old2
    · simp only [applyRow, upsertStudent, upsertAttendance, stuUpsertL, attUpsertL,
        hf1, hf2, replStu, replAtt, updStu, attData]
    · simp only [applyRow, upsertStudent, upsertAttendance, stuUpsertL, attUpsertL,
        hf1, hf2, replStu, replAtt, updStu, attData]
  · rcases hf2 : s.attendances.find?
        (fun x => x.sessionId = sid ∧ x.studentId = old1.id) with _ | old2
    · simp only [applyRow, upsertStudent, upsertAttendance, stuUpsertL, attUpsertL,
        hf1, hf2, replStu, replAtt, updStu, attData]
    · simp only [applyRow, upsertStudent, upsertAttendance, stuUpsertL, attUpsertL,
        hf1, hf2, replStu, replAtt, updStu, attData]

/-- A later row with the same key and a fresh name absorbs the pending
student overlay. -/
theorem step_stu_absorb (sid : ℕ) (k : List Char) (stu' : Student) (σ : Store)
    (r' : RowData) (hk : stu'.email = k) (x₀ : Student)
    (hfS : σ.students.find? (fun x => x.email = k) = some x₀) (hx₀ : x₀.id = stu'.id)
    (n' : List Char) (hkey : r'.key = k) (hn : r'.nameOpt = some n') :
    applyRow sid (stuOver k stu' σ) r' = applyRow sid σ r' := by
  have hx₀e0 := List.find?_some hfS
  have hx₀e : x₀.email = k := of_decide_eq_true hx₀e0
  have hfS' : (replStu k stu' σ.students).find? (fun x => x.email = k) = some stu' :=
    find_replStu k stu' σ.students hk x₀ hfS
  have hupd : updStu stu' (some n') = updStu x₀ (some n') := by
    simp only [updStu]
    rw [hx₀, hx₀e, hk]
  have hsuL : stuUpsertL (replStu k stu' σ.students) σ.nextId r'.key r'.nameOpt
      = (updStu x₀ (some n'), replStu k (updStu x₀ (some n')) σ.students, σ.nextId) := by
    rw [hkey, hn]
    simp only [stuUpsertL, hfS']
    rw [hupd, replStu_replStu k stu' (updStu x₀ (some n')) σ.students hk]
  have hsuR : stuUpsertL σ.students σ.nextId r'.key r'.nameOpt
      = (updStu x₀ (some n'), replStu k (updStu x₀ (some n')) σ.students, σ.nextId) := by
    rw [hkey, hn]
    simp only [stuUpsertL, hfS]
  simp only [applyRow_eq, stuOver]
  rw [hsuL, hsuR]

/-- A later row with the same key and no name commutes with the pending
student overlay. -/
theorem step_stu_none (sid : ℕ) (k : List Char) (stu' : Student) (σ : Store)
    (r' : RowData) (hk : stu'.email = k) (x₀ : Student)
    (hfS : σ.students.find? (fun x => x.email = k) = some x₀) (hx₀ : x₀.id = stu'.id)
    (hkey : r'.key = k) (hn : r'.nameOpt = none) :
    applyRow sid (stuOver k stu' σ) r' = stuOver k stu' (applyRow sid σ r') := by
  have hx₀e0 := List.find?_some hfS
  have hx₀e : x₀.email = k := of_decide_eq_true hx₀e0
  have hfS' : (replStu k stu' σ.students).find? (fun x => x.email = k) = some stu' :=
    find_replStu k stu' σ.students hk x₀ hfS
  have hupd' : updStu stu' none = stu' := rfl
  have hsuL : stuUpsertL (replStu k stu' σ.students) σ.nextId r'.key r'.nameOpt
      = (stu', replStu k stu' σ.students, σ.nextId) := by
    rw [hkey, hn]
    simp only [stuUpsertL, hfS']
    rw [hupd', replStu_replStu k stu' stu' σ.students hk]
  have hupd'' : updStu x₀ none = x₀ := rfl
  have hsuR : stuUpsertL σ.students σ.nextId r'.key r'.nameOpt
      = (x₀, replStu k x₀ σ.students, σ.nextId) := by
    rw [hkey, hn]
    simp only [stuUpsertL, hfS]
    rw [hupd'']
  simp only [applyRow_eq, stuOver]
  rw [hsuL, hsuR]
  rw [replStu_replStu k x₀ stu' σ.students hx₀e, hx₀]

/-- A later row with a different key commutes with the pending student
overlay. -/
theorem step_stu_ne (sid : ℕ) (k : List Char) (stu' : Student) (σ : Store)
    (r' : RowData) (hk : stu'.email = k) (hrk : r'.key ≠ k) :
    applyRow sid (stuOver k stu' σ) r' = stuOver k stu' (applyRow sid σ r') := by
  have hfind : (replStu k stu' σ.students).find? (fun x => x.email = r'.key)
      = σ.students.find? (fun x => x.email = r'.key) :=
    find_replStu_ne k r'.key stu' σ.students hk hrk
  rcases hy : σ.students.find? (fun x => x.email = r'.key) with _ | y
  · have hsuL : stuUpsertL (replStu k stu' σ.students) σ.nextId r'.key r'.nameOpt
        = (⟨σ.nextId, r'.key, r'.nameOpt⟩,
           replStu k stu' σ.students ++ [⟨σ.nextId, r'.key, r'.nameOpt⟩], σ.nextId + 1) := by
      rw [stuUpsertL, hfind, hy]
    have hsuR : stuUpsertL σ.students σ.nextId r'.key r'.nameOpt
        = (⟨σ.nextId, r'.key, r'.nameOpt⟩,
           σ.students ++ [⟨σ.nextId, r'.key, r'.nameOpt⟩], σ.nextId + 1) := by
      rw [stuUpsertL, hy]
    simp only [applyRow_eq, stuOver]
    rw [hsuL, hsuR]
    rw [replStu_append_skip k stu' ⟨σ.nextId, r'.key, r'.nameOpt⟩ σ.students hrk]
  · have hye0 := List.find?_some hy
    have hye : y.email = r'.key := of_decide_eq_true hye0
    have hsuL : stuUpsertL (replStu k stu' σ.students) σ.nextId r'.key r'.nameOpt
        = (updStu y r'.nameOpt,
           replStu r'.key (updStu y r'.nameOpt) (replStu k stu' σ.students), σ.nextId) := by
      rw [stuUpsertL, hfind, hy]
    have hsuR : stuUpsertL σ.students σ.nextId r'.key r'.nameOpt
        = (updStu y r'.nameOpt, replStu r'.key (updStu y r'.nameOpt) σ.students,
           σ.nextId) := by
      rw [stuUpsertL, hy]
    have hw : (updStu y r'.nameOpt).email = r'.key := hye
    have hcomm : replStu r'.key (updStu y r'.nameOpt) (replStu k stu' σ.students)
        = replStu k stu' (replStu r'.key (updStu y r'.nameOpt) σ.students) :=
      replStu_comm k r'.key stu' (updStu y r'.nameOpt) σ.students hk hw hrk
    simp only [applyRow_eq, stuOver]
    rw [hsuL, hsuR, hcomm]

/-- A later row resolving to the overlaid student id absorbs the
pending attendance overlay. -/
theorem step_att_absorb (sid i₀ : ℕ) (att' : AttendanceRec) (σ : Store) (r' : RowData)
    (ha1 : att'.sessionId = sid) (ha2 : att'.studentId = i₀) (a₀ : AttendanceRec)
    (hfA : σ.attendances.find? (fun x => x.sessionId = sid ∧ x.studentId = i₀) = some a₀)
    (haid : a₀.id = att'.id)
    (y : Student) (hy : σ.students.find? (fun x => x.email = r'.key) = some y)
    (hyid : y.id = i₀) :
    applyRow sid (attOver sid i₀ att' σ) r' = applyRow sid σ r' := by
  have ha₀0 := List.find?_some hfA
  have ha₀k : a₀.sessionId = sid ∧ a₀.studentId = i₀ := of_decide_eq_true ha₀0
  have hsu : stuUpsertL σ.students σ.nextId r'.key r'.nameOpt
      = (updStu y r'.nameOpt, replStu r'.key (updStu y r'.nameOpt) σ.students,
         σ.nextId) := by
    rw [stuUpsertL, hy]
  have hfL : (replAtt sid i₀ att' σ.attendances).find?
      (fun x => x.sessionId = sid ∧ x.studentId = i₀) = some att' :=
    find_replAtt sid i₀ att' σ.attendances ha1 ha2 a₀ hfA
  have hw : att'.withData (attData r') = a₀.withData (attData r') :=
    withData_congr_att att' a₀ (attData r') haid.symm (ha1.trans ha₀k.1.symm)
      (ha2.trans ha₀k.2.symm)
  have e1 : (stuUpsertL σ.students σ.nextId r'.key r'.nameOpt).2.2 = σ.nextId := by
    rw [hsu]
  have e2 : (stuUpsertL σ.students σ.nextId r'.key r'.nameOpt).1.id = i₀ := by
    rw [hsu]
    exact hyid
  have hauL : attUpsertL (replAtt sid i₀ att' σ.attendances)
      (stuUpsertL σ.students σ.nextId r'.key r'.nameOpt).2.2 sid
      (stuUpsertL σ.students σ.nextId r'.key r'.nameOpt).1.id (attData r')
      = (replAtt sid i₀ (a₀.withData (attData r')) σ.attendances, σ.nextId) := by
    rw [e1, e2]
    simp only [attUpsertL, hfL]
    rw [hw, replAtt_replAtt sid i₀ att' (a₀.withData (attData r')) σ.attendances ha1 ha2]
  have hauR : attUpsertL σ.attendances
      (stuUpsertL σ.students σ.nextId r'.key r'.nameOpt).2.2 sid
      (stuUpsertL σ.students σ.nextId r'.key r'.nameOpt).1.id (attData r')
      = (replAtt sid i₀ (a₀.withData (attData r')) σ.attendances, σ.nextId) := by
    rw [e1, e2]
    simp only [attUpsertL, hfA]
  simp only [applyRow_eq, attOver]
  rw [hauL, hauR]

/-- An attendance upsert at a different key commutes with the pending
attendance rewrite. -/
theorem attUpsertL_ne (sid i₀ j nid : ℕ) (att' : AttendanceRec) (l : List AttendanceRec)
    (d : AttendanceData) (ha1 : att'.sessionId = sid) (ha2 : att'.studentId = i₀)
    (hj : j ≠ i₀) :
    attUpsertL (replAtt sid i₀ att' l) nid sid j d
      = (replAtt sid i₀ att' (attUpsertL l nid sid j d).1, (attUpsertL l nid sid j d).2) := by
  have hne : ¬ (sid = sid ∧ j = i₀) := fun h => hj h.2
  have hfind := find_replAtt_ne sid i₀ sid j att' l ha1 ha2 hne
  rcases ha : l.find? (fun x => x.sessionId = sid ∧ x.studentId = j) with _ | a1
  · simp only [attUpsertL, hfind, ha]
    rw [replAtt_append_skip sid i₀ att'
        ⟨nid, sid, j, d.emailRaw, d.firstJoin, d.lastLeave, d.minutes, d.role, d.isEligible⟩
        l (fun h => hj h.2)]
  · have ha10 := List.find?_some ha
    have ha1k : a1.sessionId = sid ∧ a1.studentId = j := of_decide_eq_true ha10
    have hcomm : replAtt sid j (a1.withData d) (replAtt sid i₀ att' l)
        = replAtt sid i₀ att' (replAtt sid j (a1.withData d) l) :=
      replAtt_comm sid i₀ sid j att' (a1.withData d) l ha1 ha2 ha1k.1 ha1k.2 hne
    simp only [attUpsertL, hfind, ha]
    rw [hcomm]

/-- A later row resolving to a different student id commutes with the
pending attendance overlay. -/
theorem step_att_ne (sid i₀ : ℕ) (att' : AttendanceRec) (σ : Store) (r' : RowData)
    (ha1 : att'.sessionId = sid) (ha2 : att'.studentId = i₀) (hlt : i₀ < σ.nextId)
    (hno : ∀ y, σ.students.find? (fun x => x.email = r'.key) = some y → y.id ≠ i₀) :
    applyRow sid (attOver sid i₀ att' σ) r' = attOver sid i₀ att' (applyRow sid σ r') := by
  have hj : (stuUpsertL σ.students σ.nextId r'.key r'.nameOpt).1.id ≠ i₀ := by
    rcases hy : σ.students.find? (fun x => x.email = r'.key) with _ | y
    · rw [stuUpsertL, hy]
      exact fun h => Nat.lt_irrefl i₀ (h ▸ hlt)
    · rw [stuUpsertL, hy]
      exact hno y hy
  have hmain := attUpsertL_ne sid i₀ (stuUpsertL σ.students σ.nextId r'.key r'.nameOpt).1.id
    (stuUpsertL σ.students σ.nextId r'.key r'.nameOpt).2.2 att' σ.attendances (attData r')
    ha1 ha2 hj
  simp only [applyRow_eq, attOver]
  rw [hmain]

/-- Some later row writes a fresh name to email key `k`. -/
def cancelsName (k : List Char) (v : List RowData) : Prop :=
  ∃ r ∈ v, r.key = k ∧ r.nameOpt ≠ none

/-- Cons unfolding of `cancelsName`. -/
theorem cancelsName_cons (k : List Char) (r : RowData) (v : List RowData) :
    cancelsName k (r :: v) ↔ (r.key = k ∧ r.nameOpt ≠ none) ∨ cancelsName k v := by
  constructor
  · rintro ⟨x, hx, hp⟩
    rcases List.mem_cons.mp hx with h | h
    · exact Or.inl (h ▸ hp)
    · exact Or.inr ⟨x, h, hp⟩
  · rintro (h | ⟨x, hx, hp⟩)
    · exact ⟨r, List.mem_cons_self r v, h⟩
    · exact ⟨x, List.mem_cons_of_mem r hx, hp⟩

/-- Replaying rows over a pending student overlay: a later name write
to the same key absorbs the overlay, otherwise it floats to the end. -/
theorem fold_stuOver (sid : ℕ) (k : List Char) (stu' : Student) (hk : stu'.email = k) :
    ∀ (v : List RowData) (σ : Store) (x₀ : Student),
      σ.students.find? (fun x => x.email = k) = some x₀ → x₀.id = stu'.id →
      (cancelsName k v ∧
        v.foldl (applyRow sid) (stuOver k stu' σ) = v.foldl (applyRow sid) σ) ∨
      (¬ cancelsName k v ∧
        v.foldl (applyRow sid) (stuOver k stu' σ)
          = stuOver k stu' (v.foldl (applyRow sid) σ)) := by
  intro v
  induction v with
  | nil =>
    intro σ x₀ hfS hx₀
    refine Or.inr ⟨?_, rfl⟩
    rintro ⟨x, hx, _⟩
    exact absurd hx (List.not_mem_nil x)
  | cons r v' ih =>
    intro σ x₀ hfS hx₀
    by_cases hr : r.key = k ∧ r.nameOpt ≠ none
    · rcases Option.ne_none_iff_exists'.mp hr.2 with ⟨n', hn⟩
      have habs := step_stu_absorb sid k stu' σ r hk x₀ hfS hx₀ n' hr.1 hn
      refine Or.inl ⟨(cancelsName_cons k r v').mpr (Or.inl hr), ?_⟩
      rw [List.foldl_cons, List.foldl_cons, habs]
    · have hcomm : applyRow sid (stuOver k stu' σ) r = stuOver k stu' (applyRow sid σ r) := by
        by_cases hkk : r.key = k
        · have hnone : r.nameOpt = none := by
            by_contra hne
            exact hr ⟨hkk, hne⟩
          exact step_stu_none sid k stu' σ r hk x₀ hfS hx₀ hkk hnone
        · exact step_stu_ne sid k stu' σ r hk hkk
      rcases find_student_applyRow sid σ r k x₀ hfS with ⟨x₁, hfS1, hid1, _⟩
      have hx₁ : x₁.id = stu'.id := by rw [hid1, hx₀]
      rcases ih (applyRow sid σ r) x₁ hfS1 hx₁ with ⟨hc, heq⟩ | ⟨hc, heq⟩
      · refine Or.inl ⟨(cancelsName_cons k r v').mpr (Or.inr hc), ?_⟩
        rw [List.foldl_cons, List.foldl_cons, hcomm, heq]
      · refine Or.inr ⟨?_, ?_⟩
        · intro hcx
          rcases (cancelsName_cons k r v').mp hcx with h | h
          · exact hr h
          · exact hc h
        · rw [List.foldl_cons, List.foldl_cons, hcomm, heq]

/-- A student lookup that fails can only start succeeding with the
freshly created id. -/
theorem find_student_applyRow_none (sid : ℕ) (σ : Store) (rd : RowData) (q : List Char)
    (h : σ.students.find? (fun x => x.email = q) = none) :
    ∀ y', (applyRow sid σ rd).students.find? (fun x => x.email = q) = some y' →
      y'.id = σ.nextId := by
  intro y' hy'
  have hst : (applyRow sid σ rd).students
      = (stuUpsertL σ.students σ.nextId rd.key rd.nameOpt).2.1 := by
    rw [applyRow_eq]
  rw [hst] at hy'
  rcases hfk : σ.students.find? (fun x => x.email = rd.key) with _ | old
  · rw [stuUpsertL, hfk] at hy'
    by_cases hq : q = rd.key
    · subst hq
      rw [List.find?_append, h] at hy'
      simp only [Option.none_or] at hy'
      have hz := List.mem_of_find?_eq_some hy'
      simp only [List.mem_singleton] at hz
      rw [hz]
    · rw [List.find?_append, h] at hy'
      simp only [Option.none_or] at hy'
      have hz := List.mem_of_find?_eq_some hy'
      simp only [List.mem_singleton] at hz
      have hze0 := List.find?_some hy'
      have hze : y'.email = q := of_decide_eq_true hze0
      exact absurd (by rw [← hze, hz] : q = rd.key) hq
  · have holde0 := List.find?_some hfk
    have holde : old.email = rd.key := of_decide_eq_true holde0
    rw [stuUpsertL, hfk] at hy'
    by_cases hq : q = rd.key
    · rw [hq] at h
      rw [h] at hfk
      exact absurd hfk (by simp)
    · have := find_replStu_ne rd.key q (updStu old rd.nameOpt) σ.students holde hq
      rw [this, h] at hy'
      exact absurd hy' (by simp)

/-- Row `r` resolves to the student id `i₀` in store `σ`. -/
def hitsId (σ : Store) (i₀ : ℕ) (r : RowData) : Prop :=
  ∃ y, σ.students.find? (fun x => x.email = r.key) = some y ∧ y.id = i₀

/-- Whether a row hits a live id is unchanged by a loop body. -/
theorem hitsId_stable (sid i₀ : ℕ) (σ : Store) (rd r : RowData)
    (hlt : i₀ < σ.nextId) :
    hitsId (applyRow sid σ rd) i₀ r ↔ hitsId σ i₀ r := by
  constructor
  · rintro ⟨z, hz, hzid⟩
    rcases hfk : σ.students.find? (fun x => x.email = r.key) with _ | y
    · have := find_student_applyRow_none sid σ rd r.key hfk z hz
      rw [this] at hzid
      exact absurd hzid.symm (Nat.ne_of_lt hlt)
    · rcases find_student_applyRow sid σ rd r.key y hfk with ⟨y', hy', hyid', _⟩
      rw [hy'] at hz
      injection hz with hz
      exact ⟨y, hfk, by rw [← hyid', hz, hzid]⟩
  · rintro ⟨y, hy, hyid⟩
    rcases find_student_applyRow sid σ rd r.key y hy with ⟨y', hy', hyid', _⟩
    exact ⟨y', hy', by rw [hyid', hyid]⟩

/-- Some later row resolves to the student id `i₀`. -/
def cancelsAtt (σ : Store) (i₀ : ℕ) (v : List RowData) : Prop :=
  ∃ r ∈ v, hitsId σ i₀ r

/-- Cons unfolding of `cancelsAtt`. -/
theorem cancelsAtt_cons (σ : Store) (i₀ : ℕ) (r : RowData) (v : List RowData) :
    cancelsAtt σ i₀ (r :: v) ↔ hitsId σ i₀ r ∨ cancelsAtt σ i₀ v := by
  constructor
  · rintro ⟨x, hx, hp⟩
    rcases List.mem_cons.mp hx with h | h
    · exact Or.inl (h ▸ hp)
    · exact Or.inr ⟨x, h, hp⟩
  · rintro (h | ⟨x, hx, hp⟩)
    · exact ⟨r, List.mem_cons_self r v, h⟩
    · exact ⟨x, List.mem_cons_of_mem r hx, hp⟩

/-- `cancelsAtt` is unchanged by a loop body. -/
theorem cancelsAtt_stable (sid i₀ : ℕ) (σ : Store) (rd : RowData) (v : List RowData)
    (hlt : i₀ < σ.nextId) :
    cancelsAtt (applyRow sid σ rd) i₀ v ↔ cancelsAtt σ i₀ v := by
  constructor
  · rintro ⟨x, hx, hp⟩
    exact ⟨x, hx, (hitsId_stable sid i₀ σ rd x hlt).mp hp⟩
  · rintro ⟨x, hx, hp⟩
    exact ⟨x, hx, (hitsId_stable sid i₀ σ rd x hlt).mpr hp⟩

/-- Replaying rows over a pending attendance overlay: a later row
hitting the same id absorbs the overlay, otherwise it floats to the
end. -/
theorem fold_attOver (sid i₀ : ℕ) (att' : AttendanceRec)
    (ha1 : att'.sessionId = sid) (ha2 : att'.studentId = i₀) :
    ∀ (v : List RowData) (σ : Store), i₀ < σ.nextId →
      (∃ a₀, σ.attendances.find? (fun x => x.sessionId = sid ∧ x.studentId = i₀) = some a₀ ∧
        a₀.id = att'.id) →
      (cancelsAtt σ i₀ v ∧
        v.foldl (applyRow sid) (attOver sid i₀ att' σ) = v.foldl (applyRow sid) σ) ∨
      (¬ cancelsAtt σ i₀ v ∧
        v.foldl (applyRow sid) (attOver sid i₀ att' σ)
          = attOver sid i₀ att' (v.foldl (applyRow sid) σ)) := by
  intro v
  induction v with
  | nil =>
    intro σ hlt hinv
    refine Or.inr ⟨?_, rfl⟩
    rintro ⟨x, hx, _⟩
    exact absurd hx (List.not_mem_nil x)
  | cons r v' ih =>
    intro σ hlt hinv
    rcases hinv with ⟨a₀, hfA, haid⟩
    by_cases hhit : hitsId σ i₀ r
    · rcases hhit with ⟨y, hy, hyid⟩
      have habs := step_att_absorb sid i₀ att' σ r ha1 ha2 a₀ hfA haid y hy hyid
      refine Or.inl ⟨(cancelsAtt_cons σ i₀ r v').mpr (Or.inl ⟨y, hy, hyid⟩), ?_⟩
      rw [List.foldl_cons, List.foldl_cons, habs]
    · have hno : ∀ y, σ.students.find? (fun x => x.email = r.key) = some y → y.id ≠ i₀ := by
        intro y hy hyid
        exact hhit ⟨y, hy, hyid⟩
      have hcomm := step_att_ne sid i₀ att' σ r ha1 ha2 hlt hno
      have hlt' : i₀ < (applyRow sid σ r).nextId :=
        lt_of_lt_of_le hlt (applyRow_nextId sid σ r)
      rcases find_att_applyRow sid σ r sid i₀ a₀ hfA with ⟨a₁, hfA1, hid1, _, _⟩
      have hinv' : ∃ a₁', (applyRow sid σ r).attendances.find?
          (fun x => x.sessionId = sid ∧ x.studentId = i₀) = some a₁' ∧ a₁'.id = att'.id :=
        ⟨a₁, hfA1, by rw [hid1, haid]⟩
      rcases ih (applyRow sid σ r) hlt' hinv' with ⟨hc, heq⟩ | ⟨hc, heq⟩
      · refine Or.inl ⟨(cancelsAtt_cons σ i₀ r v').mpr
          (Or.inr ((cancelsAtt_stable sid i₀ σ r v' hlt).mp hc)), ?_⟩
        rw [List.foldl_cons, List.foldl_cons, hcomm, heq]
      · refine Or.inr ⟨?_, ?_⟩
        · intro hcx
          rcases (cancelsAtt_cons σ i₀ r v').mp hcx with h | h
          · exact hhit h
          · exact hc ((cancelsAtt_stable sid i₀ σ r v' hlt).mpr h)
        · rw [List.foldl_cons, List.foldl_cons, hcomm, heq]

/-- Without a later name write, the `k`-students keep their record. -/
theorem stuP_applyRow (sid : ℕ) (k : List Char) (e : Student) (σ : Store) (r : RowData)
    (hr : ¬ (r.key = k ∧ r.nameOpt ≠ none))
    (hpres : (σ.students.find? (fun x => x.email = k)).isSome)
    (hP : ∀ x ∈ σ.students, x.email = k → x = e) :
    ∀ x ∈ (applyRow sid σ r).students, x.email = k → x = e := by
  intro x hx hxe
  have hst : (applyRow sid σ r).students
      = (stuUpsertL σ.students σ.nextId r.key r.nameOpt).2.1 := by
    rw [applyRow_eq]
  rw [hst] at hx
  rcases hf : σ.students.find? (fun x => x.email = r.key) with _ | old
  · rw [stuUpsertL, hf] at hx
    rcases List.mem_append.mp hx with h | h
    · exact hP x h hxe
    · simp only [List.mem_singleton] at h
      subst h
      exact absurd hpres (by rw [← hxe, hf]; simp)
  · have holde0 := List.find?_some hf
    have holde : old.email = r.key := of_decide_eq_true holde0
    rw [stuUpsertL, hf] at hx
    rcases List.mem_map.mp hx with ⟨y, hy, rfl⟩
    by_cases hye : y.email = r.key
    · rw [if_pos hye] at hxe ⊢
      have hke : r.key = k := by
        rw [← hxe]
        exact holde.symm
      have hnone : r.nameOpt = none := by
        by_contra hne
        exact hr ⟨hke, hne⟩
      rw [hnone]
      have : updStu old none = old := rfl
      rw [this]
      exact hP old (List.mem_of_find?_eq_some hf) (by rw [holde, hke])
    · rw [if_neg hye] at hxe ⊢
      exact hP y hy hxe

/-- Iterated version: the `k`-students survive a replay without name
writes. -/
theorem stuP_fold (sid : ℕ) (k : List Char) (e : Student) :
    ∀ (v : List RowData) (σ : Store),
      ¬ cancelsName k v →
      (σ.students.find? (fun x => x.email = k)).isSome →
      (∀ x ∈ σ.students, x.email = k → x = e) →
      ∀ x ∈ (v.foldl (applyRow sid) σ).students, x.email = k → x = e := by
  intro v
  induction v with
  | nil => exact fun σ _ _ hP => hP
  | cons r v' ih =>
    intro σ hc hpres hP
    rw [List.foldl_cons]
    have hr : ¬ (r.key = k ∧ r.nameOpt ≠ none) := fun h =>
      hc ((cancelsName_cons k r v').mpr (Or.inl h))
    have hc' : ¬ cancelsName k v' := fun h =>
      hc ((cancelsName_cons k r v').mpr (Or.inr h))
    rcases Option.isSome_iff_exists.mp hpres with ⟨x₀, hx₀⟩
    rcases find_student_applyRow sid σ r k x₀ hx₀ with ⟨x₁, hx₁, _, _⟩
    exact ih (applyRow sid σ r) hc' (by rw [hx₁]; rfl)
      (stuP_applyRow sid k e σ r hr hpres hP)

/-- Without a later hit on id `i₀`, the `(sid, i₀)`-attendances keep
their record. -/
theorem attQ_applyRow (sid i₀ : ℕ) (c : AttendanceRec) (σ : Store) (r : RowData)
    (hlt : i₀ < σ.nextId) (hr : ¬ hitsId σ i₀ r)
    (hQ : ∀ a ∈ σ.attendances, a.sessionId = sid ∧ a.studentId = i₀ → a = c) :
    ∀ a ∈ (applyRow sid σ r).attendances, a.sessionId = sid ∧ a.studentId = i₀ → a = c := by
  intro a ha hak
  have hj : (stuUpsertL σ.students σ.nextId r.key r.nameOpt).1.id ≠ i₀ := by
    rcases hy : σ.students.find? (fun x => x.email = r.key) with _ | y
    · rw [stuUpsertL, hy]
      exact fun h => Nat.lt_irrefl i₀ (h ▸ hlt)
    · rw [stuUpsertL, hy]
      exact fun h => hr ⟨y, hy, h⟩
  have hat : (applyRow sid σ r).attendances
      = (attUpsertL σ.attendances (stuUpsertL σ.students σ.nextId r.key r.nameOpt).2.2 sid
        (stuUpsertL σ.students σ.nextId r.key r.nameOpt).1.id (attData r)).1 := by
    rw [applyRow_eq]
  rw [hat] at ha
  rcases hf : σ.attendances.find? (fun x => x.sessionId = sid ∧ x.studentId =
      (stuUpsertL σ.students σ.nextId r.key r.nameOpt).1.id) with _ | a1
  · rw [attUpsertL, hf] at ha
    rcases List.mem_append.mp ha with h | h
    · exact hQ a h hak
    · simp only [List.mem_singleton] at h
      subst h
      exact absurd hak.2 hj
  · have ha10 := List.find?_some hf
    have ha1k := of_decide_eq_true ha10
    rw [attUpsertL, hf] at ha
    rcases List.mem_map.mp ha with ⟨y, hy, rfl⟩
    by_cases hyk : y.sessionId = sid ∧ y.studentId =
        (stuUpsertL σ.students σ.nextId r.key r.nameOpt).1.id
    · rw [if_pos hyk] at hak ⊢
      exact absurd (show (stuUpsertL σ.students σ.nextId r.key r.nameOpt).1.id = i₀ from
        (ha1k.2.symm.trans hak.2)) hj
    · rw [if_neg hyk] at hak ⊢
      exact hQ y hy hak

/-- Iterated version: the `(sid, i₀)`-attendances survive a replay with
no hit on `i₀`. -/
theorem attQ_fold (sid i₀ : ℕ) (c : AttendanceRec) :
    ∀ (v : List RowData) (σ : Store),
      i₀ < σ.nextId →
      ¬ cancelsAtt σ i₀ v →
      (∀ a ∈ σ.attendances, a.sessionId = sid ∧ a.studentId = i₀ → a = c) →
      ∀ a ∈ (v.foldl (applyRow sid) σ).attendances,
        a.sessionId = sid ∧ a.studentId = i₀ → a = c := by
  intro v
  induction v with
  | nil => exact fun σ _ _ hQ => hQ
  | cons r v' ih =>
    intro σ hlt hc hQ
    rw [List.foldl_cons]
    have hr : ¬ hitsId σ i₀ r := fun h =>
      hc ((cancelsAtt_cons σ i₀ r v').mpr (Or.inl h))
    have hc' : ¬ cancelsAtt (applyRow sid σ r) i₀ v' := fun h =>
      hc ((cancelsAtt_cons σ i₀ r v').mpr
        (Or.inr ((cancelsAtt_stable sid i₀ σ r v' hlt).mp h)))
    exact ih (applyRow sid σ r) (lt_of_lt_of_le hlt (applyRow_nextId sid σ r)) hc'
      (attQ_applyRow sid i₀ c σ r hlt hr hQ)

/-- The student rewrite is the identity when every targeted row already
carries the written record. -/
theorem replStu_id (k : List Char) (e : Student) (l : List Student)
    (h : ∀ x ∈ l, x.email = k → x = e) : replStu k e l = l := by
  rw [replStu]
  have : l.map (fun x => if x.email = k then e else x) = l.map id :=
    List.map_congr_left (fun x hx => by
      by_cases he : x.email = k
      · rw [if_pos he, id]
        exact (h x hx he).symm
      · rw [if_neg he, id])
  rw [this, List.map_id]

/-- The attendance rewrite is the identity when every targeted row
already carries the written record. -/
theorem replAtt_id (sid i₀ : ℕ) (c : AttendanceRec) (l : List AttendanceRec)
    (h : ∀ a ∈ l, a.sessionId = sid ∧ a.studentId = i₀ → a = c) :
    replAtt sid i₀ c l = l := by
  rw [replAtt]
  have : l.map (fun a => if a.sessionId = sid ∧ a.studentId = i₀ then c else a)
      = l.map id :=
    List.map_congr_left (fun a ha => by
      by_cases he : a.sessionId = sid ∧ a.studentId = i₀
      · rw [if_pos he, id]
        exact (h a ha he).symm
      · rw [if_neg he, id])
  rw [this, List.map_id]

/-- Every `k`-row of the rewritten list is the written record. -/
theorem replStu_all_eq (k : List Char) (e : Student) (l : List Student) :
    ∀ x ∈ replStu k e l, x.email = k → x = e := by
  intro x hx hxe
  rcases List.mem_map.mp hx with ⟨y, hy, rfl⟩
  by_cases hye : y.email = k
  · rw [if_pos hye]
  · rw [if_neg hye] at hxe ⊢
    exact absurd hxe hye

/-- Every `(sid, j)`-row of the rewritten list is the written record. -/
theorem replAtt_all_eq (sid j : ℕ) (c : AttendanceRec) (l : List AttendanceRec) :
    ∀ a ∈ replAtt sid j c l, a.sessionId = sid ∧ a.studentId = j → a = c := by
  intro a ha hak
  rcases List.mem_map.mp ha with ⟨y, hy, rfl⟩
  by_cases hyk : y.sessionId = sid ∧ y.studentId = j
  · rw [if_pos hyk]
  · rw [if_neg hyk] at hak ⊢
    exact absurd hak hyk

/-- What one loop body establishes: a unique student record under the
row's key and a unique attendance record under the session and that
student's id, already carrying the row's payload. -/
theorem applyRow_establish (sid : ℕ) (F : Store) (rd : RowData) (hWF : WFS F) :
    ∃ (e : Student) (c : AttendanceRec),
      e.email = rd.key ∧
      (applyRow sid F rd).students.find? (fun x => x.email = rd.key) = some e ∧
      (∀ x ∈ (applyRow sid F rd).students, x.email = rd.key → x = e) ∧
      (∀ n, rd.nameOpt = some n → e.name = some n) ∧
      e.id < (applyRow sid F rd).nextId ∧
      (applyRow sid F rd).attendances.find?
        (fun y => y.sessionId = sid ∧ y.studentId = e.id) = some c ∧
      (∀ a ∈ (applyRow sid F rd).attendances,
        a.sessionId = sid ∧ a.studentId = e.id → a = c) ∧
      c.withData (attData rd) = c := by
  have hst : (applyRow sid F rd).students
      = (stuUpsertL F.students F.nextId rd.key rd.nameOpt).2.1 := by rw [applyRow_eq]
  have hat : (applyRow sid F rd).attendances
      = (attUpsertL F.attendances (stuUpsertL F.students F.nextId rd.key rd.nameOpt).2.2
        sid (stuUpsertL F.students F.nextId rd.key rd.nameOpt).1.id (attData rd)).1 := by
    rw [applyRow_eq]
  have hni : (applyRow sid F rd).nextId
      = (attUpsertL F.attendances (stuUpsertL F.students F.nextId rd.key rd.nameOpt).2.2
        sid (stuUpsertL F.students F.nextId rd.key rd.nameOpt).1.id (attData rd)).2 := by
    rw [applyRow_eq]
  have hnid_ge : ∀ (l : List AttendanceRec) (nid j : ℕ) (d : AttendanceData),
      nid ≤ (attUpsertL l nid sid j d).2 := by
    intro l nid j d
    rcases hf : l.find? (fun x => x.sessionId = sid ∧ x.studentId = j) with _ | a2
    · rw [attUpsertL, hf]
      exact Nat.le_succ _
    · rw [attUpsertL, hf]
  have hattpart : ∀ (e : Student) (nid : ℕ), e.id < nid →
      ∃ c : AttendanceRec,
        (attUpsertL F.attendances nid sid e.id (attData rd)).1.find?
          (fun y => y.sessionId = sid ∧ y.studentId = e.id) = some c ∧
        (∀ a ∈ (attUpsertL F.attendances nid sid e.id (attData rd)).1,
          a.sessionId = sid ∧ a.studentId = e.id → a = c) ∧
        c.withData (attData rd) = c := by
    intro e nid _
    rcases hf2 : F.attendances.find?
        (fun x => x.sessionId = sid ∧ x.studentId = e.id) with _ | a2
    · refine ⟨⟨nid, sid, e.id, (attData rd).emailRaw, (attData rd).firstJoin,
        (attData rd).lastLeave, (attData rd).minutes, (attData rd).role,
        (attData rd).isEligible⟩, ?_, ?_, rfl⟩
      · rw [attUpsertL, hf2, List.find?_append, hf2]
        simp [List.find?]
      · intro a ha hak
        rw [attUpsertL, hf2] at ha
        rcases List.mem_append.mp ha with h | h
        · exact absurd (decide_eq_true hak) (List.find?_eq_none.mp hf2 a h)
        · simp only [List.mem_singleton] at h
          exact h
    · have ha2k0 := List.find?_some hf2
      have ha2k : a2.sessionId = sid ∧ a2.studentId = e.id := of_decide_eq_true ha2k0
      refine ⟨a2.withData (attData rd), ?_, ?_, rfl⟩
      · rw [attUpsertL, hf2]
        exact find_replAtt sid e.id (a2.withData (attData rd)) F.attendances
          ha2k.1 ha2k.2 a2 hf2
      · intro a ha hak
        rw [attUpsertL, hf2] at ha
        exact replAtt_all_eq sid e.id (a2.withData (attData rd)) F.attendances a ha hak
  rcases hf1 : F.students.find? (fun x => x.email = rd.key) with _ | old
  · have hsu : stuUpsertL F.students F.nextId rd.key rd.nameOpt
        = (⟨F.nextId, rd.key, rd.nameOpt⟩,
           F.students ++ [⟨F.nextId, rd.key, rd.nameOpt⟩], F.nextId + 1) := by
      rw [stuUpsertL, hf1]
    have he1 : (stuUpsertL F.students F.nextId rd.key rd.nameOpt).1
        = ⟨F.nextId, rd.key, rd.nameOpt⟩ := by rw [hsu]
    have he2 : (stuUpsertL F.students F.nextId rd.key rd.nameOpt).2.1
        = F.students ++ [⟨F.nextId, rd.key, rd.nameOpt⟩] := by rw [hsu]
    have he3 : (stuUpsertL F.students F.nextId rd.key rd.nameOpt).2.2
        = F.nextId + 1 := by rw [hsu]
    rcases hattpart ⟨F.nextId, rd.key, rd.nameOpt⟩ (F.nextId + 1) (Nat.lt_succ_self _)
      with ⟨c, hc1, hc2, hc3⟩
    refine ⟨⟨F.nextId, rd.key, rd.nameOpt⟩, c, rfl, ?_, ?_, ?_, ?_, ?_, ?_, hc3⟩
    · rw [hst, he2, List.find?_append, hf1]
      simp [List.find?]
    · intro x hx hxe
      rw [hst, he2] at hx
      rcases List.mem_append.mp hx with h | h
      · exact absurd (decide_eq_true hxe) (List.find?_eq_none.mp hf1 x h)
      · simp only [List.mem_singleton] at h
        exact h
    · intro n hn
      simp [hn]
    · rw [hni, he3, he1]
      exact lt_of_lt_of_le (Nat.lt_succ_self _)
        (hnid_ge F.attendances (F.nextId + 1) _ (attData rd))
    · rw [hat, he3, he1]
      exact hc1
    · intro a ha hak
      rw [hat, he3, he1] at ha
      exact hc2 a ha hak
  · have holde0 := List.find?_some hf1
    have holde : old.email = rd.key := of_decide_eq_true holde0
    have hsu : stuUpsertL F.students F.nextId rd.key rd.nameOpt
        = (updStu old rd.nameOpt, replStu rd.key (updStu old rd.nameOpt) F.students,
           F.nextId) := by
      rw [stuUpsertL, hf1]
    have he1 : (stuUpsertL F.students F.nextId rd.key rd.nameOpt).1
        = updStu old rd.nameOpt := by rw [hsu]
    have he2 : (stuUpsertL F.students F.nextId rd.key rd.nameOpt).2.1
        = replStu rd.key (updStu old rd.nameOpt) F.students := by rw [hsu]
    have he3 : (stuUpsertL F.students F.nextId rd.key rd.nameOpt).2.2 = F.nextId := by
      rw [hsu]
    have heid : (updStu old rd.nameOpt).id = old.id := rfl
    have hlt : (updStu old rd.nameOpt).id < F.nextId := by
      rw [heid]
      exact hWF old (List.mem_of_find?_eq_some hf1)
    rcases hattpart (updStu old rd.nameOpt) F.nextId hlt with ⟨c, hc1, hc2, hc3⟩
    refine ⟨updStu old rd.nameOpt, c, holde, ?_, ?_, ?_, ?_, ?_, ?_, hc3⟩
    · rw [hst, he2]
      exact find_replStu rd.key (updStu old rd.nameOpt) F.students holde old hf1
    · intro x hx hxe
      rw [hst, he2] at hx
      exact replStu_all_eq rd.key (updStu old rd.nameOpt) F.students x hx hxe
    · intro n hn
      simp [updStu, hn]
    · rw [hni, he3, he1]
      exact lt_of_lt_of_le hlt (hnid_ge F.attendances F.nextId _ (attData rd))
    · rw [hat, he3, he1]
      exact hc1
    · intro a ha hak
      rw [hat, he3, he1] at ha
      exact hc2 a ha hak

/-- `cancelsAtt` is unchanged by a whole replay. -/
theorem cancelsAtt_stable_fold (sid i₀ : ℕ) (w : List RowData) :
    ∀ (v : List RowData) (σ : Store), i₀ < σ.nextId →
      (cancelsAtt (v.foldl (applyRow sid) σ) i₀ w ↔ cancelsAtt σ i₀ w) := by
  intro v
  induction v with
  | nil => exact fun σ _ => Iff.rfl
  | cons r v' ih =>
    intro σ hlt
    rw [List.foldl_cons]
    exact (ih (applyRow sid σ r) (lt_of_lt_of_le hlt (applyRow_nextId sid σ r))).trans
      (cancelsAtt_stable sid i₀ σ r w hlt)

/-- Re-applying an already-replayed row before the replay does not
change the replay's outcome: every cell the row writes is either
rewritten later anyway or already carries the value the row writes. -/
theorem shadow (sid : ℕ) (rest : List RowData) (F : Store) (rd : RowData) (hWF : WFS F) :
    rest.foldl (applyRow sid)
        (applyRow sid (rest.foldl (applyRow sid) (applyRow sid F rd)) rd)
      = rest.foldl (applyRow sid) (rest.foldl (applyRow sid) (applyRow sid F rd)) := by
  rcases applyRow_establish sid F rd hWF with
    ⟨e, c, hek, hfe, halle, hname, heid, hfc, hallc, hcw⟩
  rcases find_student_fold sid rest (applyRow sid F rd) rd.key e hfe with
    ⟨xT, hfxT, hxTid, hxTem⟩
  rcases find_att_fold sid rest (applyRow sid F rd) sid e.id c hfc with
    ⟨aT, hfaT, haTid, haTs, haTst⟩
  have haTk0 := List.find?_some hfaT
  have haTk : aT.sessionId = sid ∧ aT.studentId = e.id := of_decide_eq_true haTk0
  have heidT : e.id <
      (rest.foldl (applyRow sid) (applyRow sid F rd)).nextId :=
    lt_of_lt_of_le heid (foldRows_nextId sid rest (applyRow sid F rd))
  have hfaT' : (rest.foldl (applyRow sid) (applyRow sid F rd)).attendances.find?
      (fun y => y.sessionId = sid ∧ y.studentId = xT.id) = some aT := by
    simp only [hxTid]
    exact hfaT
  have hshape := applyRow_shape sid (rest.foldl (applyRow sid) (applyRow sid F rd)) rd
    xT aT hfxT hfaT'
  rw [hshape]
  have hstuk : (updStu xT rd.nameOpt).email = rd.key := by
    show xT.email = rd.key
    rw [hxTem, hek]
  have hfxT' : (attOver sid xT.id (aT.withData (attData rd))
      (rest.foldl (applyRow sid) (applyRow sid F rd))).students.find?
      (fun x => x.email = rd.key) = some xT := hfxT
  have hattA1 : (aT.withData (attData rd)).sessionId = sid := haTk.1
  have hattA2 : (aT.withData (attData rd)).studentId = xT.id := by
    show aT.studentId = xT.id
    rw [haTk.2, hxTid]
  have hltx : xT.id <
      (rest.foldl (applyRow sid) (applyRow sid F rd)).nextId := by
    rw [hxTid]
    exact heidT
  have hattInv : ∃ a₀, (rest.foldl (applyRow sid)
      (applyRow sid F rd)).attendances.find?
      (fun x => x.sessionId = sid ∧ x.studentId = xT.id) = some a₀ ∧
      a₀.id = (aT.withData (attData rd)).id := ⟨aT, hfaT', rfl⟩
  have hAtt := fold_attOver sid xT.id (aT.withData (attData rd)) hattA1 hattA2 rest
    (rest.foldl (applyRow sid) (applyRow sid F rd)) hltx hattInv
  rcases fold_stuOver sid rd.key (updStu xT rd.nameOpt) hstuk rest
      (attOver sid xT.id (aT.withData (attData rd))
        (rest.foldl (applyRow sid) (applyRow sid F rd))) xT hfxT' rfl with
    ⟨hcn, heq1⟩ | ⟨hcn, heq1⟩
  · -- a later name write to the key: the student overlay is absorbed,
    -- and the same row also hits the id, absorbing the attendance overlay
    rcases hAtt with ⟨hca, heq2⟩ | ⟨hca, heq2⟩
    · rw [heq1, heq2]
    · exfalso
      rcases hcn with ⟨r', hr', hrk, _⟩
      exact hca ⟨r', hr', xT, by rw [hrk]; exact hfxT, rfl⟩
  · -- no later name write: the key's rows already carry the final values
    have hP_T : ∀ x ∈ (rest.foldl (applyRow sid) (applyRow sid F rd)).students,
        x.email = rd.key → x = e :=
      stuP_fold sid rd.key e rest (applyRow sid F rd) hcn (by rw [hfe]; rfl) halle
    have hxTe : xT = e :=
      hP_T xT (List.mem_of_find?_eq_some hfxT)
        (by rw [hxTem, hek])
    have hupde : updStu xT rd.nameOpt = e := by
      rw [hxTe]
      rcases hno : rd.nameOpt with _ | n
      · rfl
      · have hen := hname n hno
        rcases e with ⟨ei, ee, en⟩
        simp only [updStu]
        exact congrArg (fun m => ⟨ei, ee, m⟩ : Option (List Char) → Student) hen.symm
    have hP_X : ∀ x ∈ (rest.foldl (applyRow sid) (rest.foldl (applyRow sid)
        (applyRow sid F rd))).students, x.email = rd.key → x = e :=
      stuP_fold sid rd.key e rest (rest.foldl (applyRow sid) (applyRow sid F rd)) hcn
        (by rw [hfxT]; rfl) hP_T
    rcases hAtt with ⟨hca, heq2⟩ | ⟨hca, heq2⟩
    · rw [heq1, heq2, hupde]
      have hrepl : replStu rd.key e (rest.foldl (applyRow sid) (rest.foldl (applyRow sid)
          (applyRow sid F rd))).students
          = (rest.foldl (applyRow sid) (rest.foldl (applyRow sid)
            (applyRow sid F rd))).students :=
        replStu_id rd.key e _ hP_X
      simp only [stuOver]
      rw [hrepl]
    · -- no later hit on the id either: both overlays are no-ops
      have hcaW : ¬ cancelsAtt (applyRow sid F rd) e.id rest := by
        intro h
        apply hca
        have := (cancelsAtt_stable_fold sid e.id rest rest (applyRow sid F rd) heid).mpr h
        rw [hxTid]
        exact this
      have hQ_T : ∀ a ∈ (rest.foldl (applyRow sid) (applyRow sid F rd)).attendances,
          a.sessionId = sid ∧ a.studentId = e.id → a = c :=
        attQ_fold sid e.id c rest (applyRow sid F rd) heid hcaW hallc
      have haTc : aT = c := hQ_T aT (List.mem_of_find?_eq_some hfaT) haTk
      have hcaT : ¬ cancelsAtt (rest.foldl (applyRow sid) (applyRow sid F rd)) e.id rest := by
        rw [cancelsAtt_stable_fold sid e.id rest rest (applyRow sid F rd) heid]
        exact hcaW
      have hQ_X : ∀ a ∈ (rest.foldl (applyRow sid) (rest.foldl (applyRow sid)
          (applyRow sid F rd))).attendances,
          a.sessionId = sid ∧ a.studentId = e.id → a = c :=
        attQ_fold sid e.id c rest (rest.foldl (applyRow sid) (applyRow sid F rd))
          heidT hcaT hQ_T
      rw [heq1, heq2, hupde]
      have hattc : aT.withData (attData rd) = c := by
        rw [haTc, hcw]
      rw [hattc]
      have hreplA : replAtt sid xT.id c (rest.foldl (applyRow sid) (rest.foldl (applyRow sid)
          (applyRow sid F rd))).attendances
          = (rest.foldl (applyRow sid) (rest.foldl (applyRow sid)
            (applyRow sid F rd))).attendances := by
        rw [hxTid]
        exact replAtt_id sid e.id c _ hQ_X
      have hreplS : replStu rd.key e (rest.foldl (applyRow sid) (rest.foldl (applyRow sid)
          (applyRow sid F rd))).students
          = (rest.foldl (applyRow sid) (rest.foldl (applyRow sid)
            (applyRow sid F rd))).students :=
        replStu_id rd.key e _ hP_X
      simp only [stuOver, attOver]
      rw [hreplA, hreplS]

/-- The session upsert leaves modules untouched. -/
theorem upsertSession_modules (s : Store) (k : List Char) (d : SessionData) :
    (upsertSession s k d).2.modules = s.modules := by
  rw [upsertSession]
  split <;> rfl

/-- The module upsert preserves well-formedness. -/
theorem upsertModule_WFS (s : Store) (mc : List Char) (h : WFS s) :
    WFS (upsertModule s mc) := by
  intro x hx
  rw [upsertModule] at hx ⊢
  revert hx
  split <;> exact fun hx => h x hx

/-- The session upsert preserves well-formedness. -/
theorem upsertSession_WFS (s : Store) (k : List Char) (d : SessionData) (h : WFS s) :
    WFS (upsertSession s k d).2 := by
  intro x hx
  rcases hf : s.sessions.find? (fun x => x.sessionKey = k) with _ | old
  · simp only [upsertSession, hf] at hx ⊢
    exact Nat.lt_succ_of_lt (h x hx)
  · simp only [upsertSession, hf] at hx ⊢
    exact h x hx

/-- Re-running the module upsert on any store that already carries the
resulting module list is the identity. -/
theorem upsertModule_replay (s : Store) (mc : List Char) (X : Store)
    (hX : X.modules = (upsertModule s mc).modules) : upsertModule X mc = X := by
  have hsome : ∃ m, (upsertModule s mc).modules.find? (fun m => m.code = mc) = some m := by
    rcases hf : s.modules.find? (fun m => m.code = mc) with _ | m
    · refine ⟨⟨mc, mc⟩, ?_⟩
      have : (upsertModule s mc).modules = s.modules ++ [⟨mc, mc⟩] := by
        rw [upsertModule, hf]
      rw [this, List.find?_append, hf]
      simp [List.find?]
    · refine ⟨m, ?_⟩
      have : (upsertModule s mc).modules = s.modules := by
        rw [upsertModule, hf]
      rw [this]
      exact hf
  rcases hsome with ⟨m, hm⟩
  rcases hfX : X.modules.find? (fun x => x.code = mc) with _ | m'
  · rw [hX, hm] at hfX
    cases hfX
  · rw [upsertModule, hfX]

/-- After the session upsert, the key's first match is the returned
row, every key match equals it, and it already carries the payload. -/
theorem upsertSession_after (s : Store) (key : List Char) (d : SessionData) :
    (upsertSession s key d).2.sessions.find? (fun x => x.sessionKey = key)
      = some (upsertSession s key d).1 ∧
    (∀ x ∈ (upsertSession s key d).2.sessions, x.sessionKey = key →
      x = (upsertSession s key d).1) ∧
    (upsertSession s key d).1.withData d = (upsertSession s key d).1 := by
  rcases hf : s.sessions.find? (fun x => x.sessionKey = key) with _ | old
  · simp only [upsertSession, hf]
    refine ⟨?_, ?_, rfl⟩
    · rw [List.find?_append, hf]
      simp [List.find?]
    · intro x hx hxe
      rcases List.mem_append.mp hx with h | h
      · exact absurd (decide_eq_true hxe) (List.find?_eq_none.mp hf x h)
      · simp only [List.mem_singleton] at h
        exact h
  · have holdk0 := List.find?_some hf
    have holdk : old.sessionKey = key := of_decide_eq_true holdk0
    simp only [upsertSession, hf]
    have hemail : ∀ y : SessionRec,
        decide ((if y.sessionKey = key then old.withData d else y).sessionKey = key)
          = decide (y.sessionKey = key) := by
      intro y
      by_cases he : y.sessionKey = key
      · rw [if_pos he]
        have h1 : (old.withData d).sessionKey = key := holdk
        simp [h1, he]
      · rw [if_neg he]
    refine ⟨?_, ?_, rfl⟩
    · rw [find?_map_pres s.sessions
        (fun y => if y.sessionKey = key then old.withData d else y)
        (fun y => decide (y.sessionKey = key)) hemail, hf]
      have : old.sessionKey = key := holdk
      simp [this]
    · intro x hx hxe
      rcases List.mem_map.mp hx with ⟨y, hy, rfl⟩
      by_cases hye : y.sessionKey = key
      · rw [if_pos hye]
      · rw [if_neg hye] at hxe ⊢
        exact absurd hxe hye

/-- Re-running the session upsert on any store carrying the resulting
session list returns the same row and leaves the store unchanged. -/
theorem upsertSession_replay (s : Store) (key : List Char) (d : SessionData) (X : Store)
    (hX : X.sessions = (upsertSession s key d).2.sessions) :
    upsertSession X key d = ((upsertSession s key d).1, X) := by
  rcases upsertSession_after s key d with ⟨hfind, halleq, hwd⟩
  rcases hfX : X.sessions.find? (fun x => x.sessionKey = key) with _ | old
  · rw [hX, hfind] at hfX
    cases hfX
  · have hold : old = (upsertSession s key d).1 := by
      rw [hX, hfind] at hfX
      injection hfX with h
      exact h.symm
    have h1 : old.withData d = (upsertSession s key d).1 := by
      rw [hold]
      exact hwd
    have h2 : X.sessions.map
        (fun x => if x.sessionKey = key then old.withData d else x) = X.sessions := by
      have : X.sessions.map
          (fun x => if x.sessionKey = key then old.withData d else x) = X.sessions.map id :=
        List.map_congr_left (fun x hx => by
          by_cases he : x.sessionKey = key
          · rw [if_pos he, id]
            have hxeq : x = (upsertSession s key d).1 :=
              halleq x (by rw [← hX]; exact hx) he
            rw [h1, hxeq]
          · rw [if_neg he, id])
      rw [this, List.map_id]
    simp only [upsertSession, hfX]
    rw [Prod.mk.injEq]
    constructor
    · exact h1
    · rw [h2]

/-- Re-running the module and session upserts on any store already
carrying their results returns the same session row and changes
nothing. -/
theorem sessrun_replay (s X : Store) (mc key : List Char) (d : SessionData)
    (hm : X.modules = (upsertSession (upsertModule s mc) key d).2.modules)
    (hs : X.sessions = (upsertSession (upsertModule s mc) key d).2.sessions) :
    upsertSession (upsertModule X mc) key d
      = ((upsertSession (upsertModule s mc) key d).1, X) := by
  have hm' : X.modules = (upsertModule s mc).modules := by
    rw [hm, upsertSession_modules]
  have hrep : upsertModule X mc = X := upsertModule_replay s mc X hm'
  rw [hrep]
  exact upsertSession_replay (upsertModule s mc) key d X hs

/-- Replaying the same parsed rows a second time does not change the
store: every write is keyed and last-write-wins. -/
theorem fold_idem (sid : ℕ) :
    ∀ (acts : List RowData) (s : Store), WFS s →
      acts.foldl (applyRow sid) (acts.foldl (applyRow sid) s)
        = acts.foldl (applyRow sid) s := by
  intro acts
  induction acts with
  | nil => exact fun s _ => rfl
  | cons rd rest ih =>
    intro s hWF
    rw [List.foldl_cons, List.foldl_cons]
    rw [shadow sid rest s rd hWF]
    exact ih (applyRow sid s rd) (applyRow_WFS sid s rd hWF)

/-- Second run of the participant loop (preceded by the module and
session replays) over the store the first run produced: everything
converges. -/
theorem ok_branch_idem (s : Store) (mc key : List Char) (d : SessionData) (cols : Cols)
    (window : List (ℕ × List Char)) (hWF : WFS s) :
    (runRows (upsertSession (upsertModule
        ((runRows (upsertSession (upsertModule s mc) key d).1.id cols window
          ⟨(upsertSession (upsertModule s mc) key d).2, 0, 0, 0⟩).store) mc) key d).1.id
      cols window
      ⟨(upsertSession (upsertModule
        ((runRows (upsertSession (upsertModule s mc) key d).1.id cols window
          ⟨(upsertSession (upsertModule s mc) key d).2, 0, 0, 0⟩).store) mc) key d).2,
        0, 0, 0⟩).store
    = (runRows (upsertSession (upsertModule s mc) key d).1.id cols window
        ⟨(upsertSession (upsertModule s mc) key d).2, 0, 0, 0⟩).store := by
  have hXeq : (runRows (upsertSession (upsertModule s mc) key d).1.id cols window
      ⟨(upsertSession (upsertModule s mc) key d).2, 0, 0, 0⟩).store
      = List.foldl (applyRow (upsertSession (upsertModule s mc) key d).1.id)
        (upsertSession (upsertModule s mc) key d).2
        (window.filterMap (fun il => mkRowData cols il.1 il.2)) :=
    runRows_store _ _ _ _
  have hXm : (runRows (upsertSession (upsertModule s mc) key d).1.id cols window
      ⟨(upsertSession (upsertModule s mc) key d).2, 0, 0, 0⟩).store.modules
      = (upsertSession (upsertModule s mc) key d).2.modules := by
    rw [hXeq]
    exact foldRows_modules _ _ _
  have hXs : (runRows (upsertSession (upsertModule s mc) key d).1.id cols window
      ⟨(upsertSession (upsertModule s mc) key d).2, 0, 0, 0⟩).store.sessions
      = (upsertSession (upsertModule s mc) key d).2.sessions := by
    rw [hXeq]
    exact foldRows_sessions _ _ _
  have hrepl := sessrun_replay s
    ((runRows (upsertSession (upsertModule s mc) key d).1.id cols window
      ⟨(upsertSession (upsertModule s mc) key d).2, 0, 0, 0⟩).store) mc key d hXm hXs
  simp only [hrepl]
  rw [runRows_store, hXeq]
  exact fold_idem (upsertSession (upsertModule s mc) key d).1.id
    (window.filterMap (fun il => mkRowData cols il.1 il.2))
    (upsertSession (upsertModule s mc) key d).2
    (upsertSession_WFS _ _ _ (upsertModule_WFS _ _ hWF))

/-- Running the import body twice with the same arguments leaves the
store where the first run put it. -/
theorem importWithModule_idem (req : ImportRequest) (intake : List Char) (year : JsNum)
    (mc : List Char) (s : Store) (hWF : WFS s) :
    (importWithModule req (importWithModule req s intake year mc).2 intake year mc).2
      = (importWithModule req s intake year mc).2 := by
  simp only [importWithModule]
  rcases hm : findIndexFrom (splitLinesJ req.fileText)
      (fun l => trimL l = "2. Participants".data) 0 with _ | idx2
  · dsimp only
    exact congrArg Prod.snd (sessrun_replay s _ mc _ _ rfl rfl)
  · dsimp only
    rcases hh : findIndexFrom (splitLinesJ req.fileText) isHeaderLine (idx2 + 1)
        with _ | hIdx
    · dsimp only
      exact congrArg Prod.snd (sessrun_replay s _ mc _ _ rfl rfl)
    · dsimp only
      rcases hs3 : findIndexFrom (splitLinesJ req.fileText) isSection3 (idx2 + 1)
          with _ | i3
      · dsimp only
        by_cases hle : (splitLinesJ req.fileText).length ≤ hIdx
        · rw [if_pos hle, if_pos hle]
          apply congrArg Prod.snd
          refine congrArg (Prod.mk _) ?_
          exact congrArg Prod.snd (sessrun_replay s _ mc _ _ rfl rfl)
        · rw [if_neg hle, if_neg hle]
          rcases hcN : colIndexL ((splitCharL '\t'
              ((splitLinesJ req.fileText).getD hIdx [])).map trimL) "Name".data
              with _ | iN <;>
            rcases hcE : colIndexL ((splitCharL '\t'
                ((splitLinesJ req.fileText).getD hIdx [])).map trimL) "Email".data
                with _ | iE <;>
              rcases hcD : colIndexL ((splitCharL '\t'
                  ((splitLinesJ req.fileText).getD hIdx [])).map trimL)
                  "In-Meeting Duration".data with _ | iD <;>
                dsimp only <;>
                first
                  | exact congrArg Prod.snd (sessrun_replay s _ mc _ _ rfl rfl)
                  | exact ok_branch_idem s mc _ _ _ _ hWF
      · dsimp only
        by_cases hle : i3 ≤ hIdx
        · rw [if_pos hle, if_pos hle]
          apply congrArg Prod.snd
          refine congrArg (Prod.mk _) ?_
          exact congrArg Prod.snd (sessrun_replay s _ mc _ _ rfl rfl)
        · rw [if_neg hle, if_neg hle]
          rcases hcN : colIndexL ((splitCharL '\t'
              ((splitLinesJ req.fileText).getD hIdx [])).map trimL) "Name".data
              with _ | iN <;>
            rcases hcE : colIndexL ((splitCharL '\t'
                ((splitLinesJ req.fileText).getD hIdx [])).map trimL) "Email".data
                with _ | iE <;>
              rcases hcD : colIndexL ((splitCharL '\t'
                  ((splitLinesJ req.fileText).getD hIdx [])).map trimL)
                  "In-Meeting Duration".data with _ | iD <;>
                dsimp only <;>
                first
                  | exact congrArg Prod.snd (sessrun_replay s _ mc _ _ rfl rfl)
                  | exact ok_branch_idem s mc _ _ _ _ hWF

/-- C2: re-importing the identical attendance export a second time
leaves the stored state identical to the state after the first import:
the module, session, student and attendance tables and the id counter
all converge, so no duplicate Session or Attendance rows appear and
every entity keeps the same final field values (for any store whose
student ids are below the id counter, as every store the route builds
is). -/
theorem claim2_idempotent (req : ImportRequest) (s : Store) (hWF : WFS s) :
    (POST req (POST req s).2).2 = (POST req s).2 := by
  simp only [POST]
  rcases hy : jsNumber req.year with _ | year
  · rfl
  · dsimp only
    by_cases h1 : normIntake req.intake = [] ∨ year.num = 0
    · rw [if_pos h1, if_pos h1]
    · rw [if_neg h1, if_neg h1]
      by_cases h2 : ¬ req.hasFile
      · rw [if_pos h2, if_pos h2]
      · rw [if_neg h2, if_neg h2]
        rcases hmc : (if normModuleCode req.moduleCode ≠ [] then
            some (normModuleCode req.moduleCode)
          else parseModuleCodeFromFilename req.fileName) with _ | mc
        · rfl
        · dsimp only
          exact importWithModule_idem req (normIntake req.intake) year mc s hWF

/-- C2 witness: the idempotence theorem applied to the one-row import
against the empty store. -/
theorem claim2_idempotent_witness :
    WFS emptyStore ∧
    (POST c8Request (POST c8Request emptyStore).2).2 = (POST c8Request emptyStore).2 :=
  ⟨fun x hx => absurd hx (List.not_mem_nil x),
   claim2_idempotent c8Request emptyStore (fun x hx => absurd hx (List.not_mem_nil x))⟩
